import Mathlib

/-!
Shallow embedding of the SealBid Move modules (`seal_bid::simple_auction`,
`seal_bid::seal_integration`, `seal_bid::simple_coin_factory`) and proofs
about the claims of the specification.

Modelling conventions:
* Move `u64` values are `Nat`; every arithmetic operation that can abort in
  the Move VM (overflow of `+`/`*`, division by zero, `balance::split` with
  an amount larger than the pool, vector indexing out of bounds) is modelled
  explicitly: fallible code returns `Option`/`Except` and an abort is a
  `none`/`.error`.  A Move abort discards all effects of the transaction, so
  an `.error` result models "the call fails and the auction state is
  unchanged".
* `address` is modelled as `Nat`.
* Byte vectors (`vector<u8>`) are `List Nat` whose elements are byte values.
* `balance::join` on the SUI payment pool is modelled as plain addition:
  the sum of all existing `Coin<SUI>` values is bounded by the SUI total
  supply, which is below 2^64, so the join can never overflow on chain.
-/

namespace SealBid

/-- 2^64, the number of values of a Move `u64`. -/
def U64_MOD : Nat := 2 ^ 64

/-- A Move transaction abort: either an `assert!` failure carrying an error
code, or an abort raised by the VM itself (arithmetic overflow, division by
zero, a `balance::split` exceeding the pool, an out-of-bounds vector index). -/
inductive MoveAbort where
  | code (n : Nat)
  | overflow
  | divZero
  | splitUnderflow
  | nonZeroDestroy
  | oob
deriving Repr, DecidableEq

/-! Error codes of `seal_bid::simple_auction`. -/

def EAuctionNotStarted : Nat := 1
def EAuctionEnded : Nat := 2
def EAuctionNotEnded : Nat := 3
def ENotAuctionCreator : Nat := 4
def EAlreadyFinalized : Nat := 5
def EInvalidStrategy : Nat := 7
def EInsufficientPayment : Nat := 8

/-! Error codes of `seal_bid::simple_coin_factory`. -/

def E_SYMBOL_NOT_FOUND : Nat := 2
def E_NOT_MINTABLE : Nat := 3
def E_INVALID_AMOUNT : Nat := 5

/-! Strategy constants of `seal_bid::simple_auction`. -/

def STRATEGY_TOP_N : Nat := 0
def STRATEGY_RANDOM_N : Nat := 1
def STRATEGY_CLOSEST_TO_AVG : Nat := 2

/-- `EncryptedBid` of `simple_auction.move` (lines 57-63). -/
structure EncryptedBid where
  bidder : Nat
  encrypted_data : List Nat
  payment_amount : Nat
deriving Repr, DecidableEq

/-- `DecryptedBid` of `simple_auction.move` (lines 182-187). -/
structure DecryptedBid where
  bidder : Nat
  amount : Nat
  payment : Nat
  index : Nat
deriving Repr, DecidableEq

instance : Inhabited DecryptedBid := ⟨⟨0, 0, 0, 0⟩⟩

/-- `SimpleTreasuryCap` of `simple_coin_factory.move`: the fields read or
written by the auction module (`symbol`, `total_supply`, `mintable`); the
`id : UID` field is never inspected. -/
structure SimpleTreasuryCap where
  symbol : String
  total_supply : Nat
  mintable : Bool
deriving Repr, DecidableEq

/-- The `SimpleCoinRegistry` of `simple_coin_factory.move`, restricted to
what `mint_simple_coin` reads and writes: for each registered symbol the
`total_minted` field of its `CoinInfo` (the remaining `CoinInfo` fields are
never touched by the auction flow). -/
structure SimpleCoinRegistry where
  coins : List (String × Nat)
deriving Repr, DecidableEq

/-- `MintEvent` of `simple_coin_factory.move`; also records the
`SimpleCoin` object created and transferred by `mint_simple_coin`. -/
structure MintEvent where
  symbol : String
  amount : Nat
  recipient : Nat
deriving Repr, DecidableEq

/-- `SimpleAuction` of `simple_auction.move` (lines 30-54); the `id : UID`
field is dropped, `payment_pool : Balance<SUI>` is its numeric value. -/
structure SimpleAuction where
  creator : Nat
  coin_symbol : String
  total_supply : Nat
  winner_count : Nat
  strategy : Nat
  start_time : Nat
  end_time : Nat
  encrypted_bids : List EncryptedBid
  payment_pool : Nat
  finalized : Bool
  treasury_cap : SimpleTreasuryCap
deriving Repr, DecidableEq

/-- The parts of Sui's `TxContext` read by the auction module: the sender
address and the transaction digest (a byte vector). -/
structure TxContext where
  sender : Nat
  digest : List Nat
deriving Repr, DecidableEq

/-! ## parse_bid_amount (simple_auction.move lines 280-297) -/

/-- The `while` loop of `parse_bid_amount`: scan the bytes left to right,
skip non-digits, fold digits with `result = result * 10 + digit`.  Each
`u64` multiplication/addition aborts on overflow, modelled by `none`. -/
def parse_go (result : Nat) : List Nat → Option Nat
  | [] => some result
  | byte :: rest =>
    if 48 ≤ byte ∧ byte ≤ 57 then
      if result * 10 + (byte - 48) < U64_MOD then
        parse_go (result * 10 + (byte - 48)) rest
      else none
    else parse_go result rest

/-- `parse_bid_amount` of `simple_auction.move`. -/
def parse_bid_amount (encrypted_data : List Nat) : Option Nat :=
  if encrypted_data.length = 0 then some 0
  else parse_go 0 encrypted_data

/-- The unbounded digit fold described by the spec: skip non-digit bytes,
fold every ASCII digit via `result = result * 10 + digit`, with no overflow
(the spec side of the claim; compare with `parse_go`). -/
def specDigitFold (result : Nat) : List Nat → Nat
  | [] => result
  | byte :: rest =>
    if 48 ≤ byte ∧ byte ≤ 57 then specDigitFold (result * 10 + (byte - 48)) rest
    else specDigitFold result rest

/-! ## Bid revelation loop (simple_auction.move lines 213-228) -/

/-- The decryption loop of `finalize_simple_auction`: each stored
`EncryptedBid` at position `i` is parsed and turned into a `DecryptedBid`
with `index = i`; a parse abort aborts the whole loop. -/
def decrypt_all_go (i : Nat) : List EncryptedBid → Option (List DecryptedBid)
  | [] => some []
  | b :: rest =>
    match parse_bid_amount b.encrypted_data with
    | none => none
    | some amt =>
      match decrypt_all_go (i + 1) rest with
      | none => none
      | some ds => some (⟨b.bidder, amt, b.payment_amount, i⟩ :: ds)

/-- The full revelation pass over the stored bids. -/
def decrypt_all (bids : List EncryptedBid) : Option (List DecryptedBid) :=
  decrypt_all_go 0 bids

/-! ## seal_integration.move -/

/-- Little-endian byte encoding of a `u64` (`bcs::to_bytes` on a `u64`
always produces exactly 8 bytes, least significant first). -/
def u64_to_le_bytes : Nat → Nat → List Nat
  | 0, _ => []
  | n + 1, v => (v % 256) :: u64_to_le_bytes n (v / 256)

/-- `generate_key_id` of `seal_integration.move` (lines 15-17). -/
def generate_key_id (end_time : Nat) : List Nat :=
  u64_to_le_bytes 8 end_time

/-- Little-endian byte decoding, as done by `bcs::peel_u64`. -/
def le_bytes_to_u64 : List Nat → Nat
  | [] => 0
  | b :: rest => b + 256 * le_bytes_to_u64 rest

/-- `check_time_lock_policy` of `seal_integration.move` (lines 21-28):
`peel_u64` aborts when fewer than 8 bytes are available (modelled by
`none`); otherwise the result is `leftovers empty && now >= end_time`. -/
def check_time_lock_policy (key_id : List Nat) (now : Nat) : Option Bool :=
  if 8 ≤ key_id.length then
    some ((key_id.drop 8).isEmpty && decide (le_bytes_to_u64 (key_id.take 8) ≤ now))
  else none

/-! ## Basic lemmas about the parser and the byte codec -/

theorem specDigitFold_le (l : List Nat) : ∀ r, r ≤ specDigitFold r l := by
  induction l with
  | nil => intro r; simp [specDigitFold]
  | cons b rest ih =>
    intro r
    by_cases hb : 48 ≤ b ∧ b ≤ 57
    · have h1 : r ≤ r * 10 + (b - 48) := by
        have : r * 1 ≤ r * 10 := Nat.mul_le_mul_left r (by omega)
        omega
      calc r ≤ r * 10 + (b - 48) := h1
        _ ≤ specDigitFold (r * 10 + (b - 48)) rest := ih _
        _ = specDigitFold r (b :: rest) := by simp [specDigitFold, hb]
    · calc r ≤ specDigitFold r rest := ih r
        _ = specDigitFold r (b :: rest) := by simp [specDigitFold, hb]

theorem parse_go_eq_fold (l : List Nat) :
    ∀ r, specDigitFold r l < U64_MOD → parse_go r l = some (specDigitFold r l) := by
  induction l with
  | nil => intro r _; simp [parse_go, specDigitFold]
  | cons b rest ih =>
    intro r hlt
    by_cases hb : 48 ≤ b ∧ b ≤ 57
    · have hfold : specDigitFold r (b :: rest) = specDigitFold (r * 10 + (b - 48)) rest := by
        simp [specDigitFold, hb]
      have hmid : r * 10 + (b - 48) < U64_MOD := by
        have := specDigitFold_le rest (r * 10 + (b - 48))
        rw [hfold] at hlt; omega
      rw [hfold] at hlt ⊢
      simp [parse_go, hb, hmid, ih _ hlt]
    · have hfold : specDigitFold r (b :: rest) = specDigitFold r rest := by
        simp [specDigitFold, hb]
      rw [hfold] at hlt ⊢
      simp [parse_go, hb, ih _ hlt]

theorem parse_bid_amount_eq_fold (data : List Nat)
    (h : specDigitFold 0 data < U64_MOD) :
    parse_bid_amount data = some (specDigitFold 0 data) := by
  unfold parse_bid_amount
  by_cases hlen : data.length = 0
  · rcases List.eq_nil_of_length_eq_zero hlen with rfl
    simp [specDigitFold]
  · simp [hlen, parse_go_eq_fold data 0 h]

theorem u64_to_le_bytes_length (n : Nat) : ∀ v, (u64_to_le_bytes n v).length = n := by
  induction n with
  | zero => intro v; simp [u64_to_le_bytes]
  | succ k ih => intro v; simp [u64_to_le_bytes, ih]

theorem le_bytes_roundtrip (n : Nat) :
    ∀ v, v < 256 ^ n → le_bytes_to_u64 (u64_to_le_bytes n v) = v := by
  induction n with
  | zero => intro v hv; interval_cases v; simp [u64_to_le_bytes, le_bytes_to_u64]
  | succ k ih =>
    intro v hv
    have hdiv : v / 256 < 256 ^ k := by
      rw [Nat.div_lt_iff_lt_mul (by omega)]
      calc v < 256 ^ (k + 1) := hv
        _ = 256 ^ k * 256 := by ring
    simp only [u64_to_le_bytes, le_bytes_to_u64, ih _ hdiv]
    omega

/-! ## Bubble sort (simple_auction.move lines 388-441)

Both `bubble_sort_desc` and `bubble_sort_by_distance` are the same loop
with different comparisons, so the loop is embedded once, parametrised by
the swap condition `swapIf` (the `if (...) vector::swap` test).

The source's inner loop `while (j < len - 1 - i)` performs `len - 1 - i`
adjacent compare-and-swap steps starting at the head; `bpass k l` performs
exactly `k` such steps.  The outer loop `while (i < len - 1)` runs the
passes with bounds `len-1, len-2, ..., 1`, which `bsort_go (len-1) l`
reproduces. -/

/-- One inner pass of the bubble sort: at most `k` adjacent
compare-and-swap steps from the head of the list. -/
def bpass (swapIf : α → α → Bool) : Nat → List α → List α
  | 0, l => l
  | _ + 1, [] => []
  | _ + 1, [a] => [a]
  | k + 1, a :: b :: rest =>
    if swapIf a b then b :: bpass swapIf k (a :: rest)
    else a :: bpass swapIf k (b :: rest)

/-- The outer loop of the bubble sort: passes with bounds `n, n-1, ..., 1`. -/
def bsort_go (swapIf : α → α → Bool) : Nat → List α → List α
  | 0, l => l
  | k + 1, l => bsort_go swapIf k (bpass swapIf (k + 1) l)

/-- The full bubble sort: the source returns immediately when
`len <= 1`, otherwise runs `len - 1` shrinking passes. -/
def bubbleSort (swapIf : α → α → Bool) (l : List α) : List α :=
  if l.length ≤ 1 then l else bsort_go swapIf (l.length - 1) l

/-- `bubble_sort_desc` of `simple_auction.move` (lines 388-407): swap when
`bids[j].amount < bids[j+1].amount`. -/
def bubble_sort_desc (bids : List DecryptedBid) : List DecryptedBid :=
  bubbleSort (fun x y => decide (x.amount < y.amount)) bids

/-- The distance to the average used by `bubble_sort_by_distance`
(lines 421-431): `if amount > average then amount - average else
average - amount`. -/
def dist_to (average : Nat) (b : DecryptedBid) : Nat :=
  if b.amount > average then b.amount - average else average - b.amount

/-- `bubble_sort_by_distance` of `simple_auction.move` (lines 410-441):
swap when `dist_j > dist_{j+1}`. -/
def bubble_sort_by_distance (bids : List DecryptedBid) (average : Nat) : List DecryptedBid :=
  bubbleSort (fun x y => decide (dist_to average x > dist_to average y)) bids

section BubbleLemmas

variable {α : Type} (swapIf : α → α → Bool)

theorem bpass_perm : ∀ (k : Nat) (l : List α), (bpass swapIf k l).Perm l := by
  intro k
  induction k with
  | zero => intro l; simp [bpass]
  | succ k ih =>
    intro l
    match l with
    | [] => simp [bpass]
    | [a] => simp [bpass]
    | a :: b :: rest =>
      by_cases h : swapIf a b
      · simp only [bpass, h, if_true]
        exact ((ih (a :: rest)).cons b).trans (List.Perm.swap a b rest)
      · simp only [bpass, h, if_false]
        exact (ih (b :: rest)).cons a

theorem bsort_go_perm : ∀ (k : Nat) (l : List α), (bsort_go swapIf k l).Perm l := by
  intro k
  induction k with
  | zero => intro l; simp [bsort_go]
  | succ k ih =>
    intro l
    simp only [bsort_go]
    exact (ih _).trans (bpass_perm swapIf (k + 1) l)

theorem bubbleSort_perm (l : List α) : (bubbleSort swapIf l).Perm l := by
  unfold bubbleSort
  by_cases h : l.length ≤ 1
  · simp [h]
  · simp [h, bsort_go_perm]

variable (R : α → α → Prop)

/-- One pass bubbles a locally minimal element to position `k`: the result
is `front ++ m :: l.drop (k+1)` where `front ++ [m]` is a permutation of
the first `k+1` elements and every element of `front` is `R`-before `m`. -/
theorem bpass_spec
    (hswapT : ∀ a b, swapIf a b = true → R b a)
    (hswapF : ∀ a b, swapIf a b = false → R a b)
    (htrans : ∀ {a b c}, R a b → R b c → R a c) :
    ∀ (k : Nat) (l : List α), k < l.length →
    ∃ front m, bpass swapIf k l = front ++ m :: l.drop (k + 1) ∧
      front.length = k ∧ (front ++ [m]).Perm (l.take (k + 1)) ∧
      ∀ x ∈ front, R x m := by
  intro k
  induction k with
  | zero =>
    intro l hl
    match l, hl with
    | a :: t, _ =>
      refine ⟨[], a, ?_, rfl, ?_, ?_⟩
      · simp [bpass]
      · simp
      · simp
  | succ k ih =>
    intro l hl
    match l with
    | [] => simp at hl
    | [a] => simp at hl
    | a :: b :: rest =>
      have hlen : k < (if swapIf a b then a :: rest else b :: rest).length := by
        by_cases h : swapIf a b <;> simp_all
      by_cases hs : swapIf a b
      all_goals
        simp only [hs, if_true, if_false] at hlen
      · -- swap: carried element is `a`, head of the result is `b`
        obtain ⟨front, m, heq, hflen, hperm, hR⟩ := ih (a :: rest) hlen
        have hRcd : R b a := hswapT a b hs
        refine ⟨b :: front, m, ?_, by simp [hflen], ?_, ?_⟩
        · simp only [bpass, hs, if_true, heq]
          simp [List.drop_succ_cons]
        · have h1 : (b :: (front ++ [m])).Perm (b :: (a :: rest).take (k + 1)) :=
            hperm.cons b
          have h2 : (b :: (a :: rest).take (k + 1)) = b :: a :: rest.take k := by simp
          have h3 : ((a :: b :: rest).take (k + 2)) = a :: b :: rest.take k := by simp
          rw [h2] at h1
          rw [h3]
          exact List.Perm.trans h1 (List.Perm.swap a b (rest.take k))
        · intro x hx
          rcases List.mem_cons.mp hx with rfl | hx2
          · -- x = b: show R b m via R b a and the position of a
            have ha_mem : a ∈ front ++ [m] := by
              have : a ∈ (a :: rest).take (k + 1) := by simp
              exact hperm.mem_iff.mpr this
            rcases List.mem_append.mp ha_mem with hin | hm
            · exact htrans hRcd (hR a hin)
            · simp at hm; subst hm; exact hRcd
          · exact hR x hx2
      · -- no swap: carried element is `b`, head of the result is `a`
        obtain ⟨front, m, heq, hflen, hperm, hR⟩ := ih (b :: rest) hlen
        have hRcd : R a b := hswapF a b (by simpa using hs)
        refine ⟨a :: front, m, ?_, by simp [hflen], ?_, ?_⟩
        · simp only [bpass, hs, if_false, heq]
          simp [List.drop_succ_cons]
        · have h1 : (a :: (front ++ [m])).Perm (a :: (b :: rest).take (k + 1)) :=
            hperm.cons a
          have h2 : (a :: (b :: rest).take (k + 1)) = a :: b :: rest.take k := by simp
          have h3 : ((a :: b :: rest).take (k + 2)) = a :: b :: rest.take k := by simp
          rw [h2] at h1
          rw [h3]
          exact h1
        · intro x hx
          rcases List.mem_cons.mp hx with rfl | hx2
          · have hb_mem : b ∈ front ++ [m] := by
              have : b ∈ (b :: rest).take (k + 1) := by simp
              exact hperm.mem_iff.mpr this
            rcases List.mem_append.mp hb_mem with hin | hm
            · exact htrans hRcd (hR b hin)
            · simp at hm; subst hm; exact hRcd
          · exact hR x hx2

/-- Loop invariant of the outer bubble-sort loop: the suffix after position
`n` is already sorted and dominated by the whole prefix. -/
def bubbleInv (n : Nat) (l : List α) : Prop :=
  (l.drop (n + 1)).Pairwise R ∧
    ∀ x ∈ l.take (n + 1), ∀ y ∈ l.drop (n + 1), R x y

theorem bsort_go_sorted
    (hswapT : ∀ a b, swapIf a b = true → R b a)
    (hswapF : ∀ a b, swapIf a b = false → R a b)
    (htrans : ∀ {a b c}, R a b → R b c → R a c) :
    ∀ (n : Nat) (l : List α), n < l.length → bubbleInv R n l →
      (bsort_go swapIf n l).Pairwise R := by
  intro n
  induction n with
  | zero =>
    intro l hl hinv
    match l, hl with
    | a :: t, _ =>
      simp only [bsort_go]
      rcases hinv with ⟨h1, h2⟩
      simp only [List.drop_succ_cons, List.drop_zero] at h1
      simp only [List.take_succ_cons, List.take_zero] at h2
      exact List.pairwise_cons.mpr ⟨fun y hy => h2 a (by simp) y (by simpa using hy), h1⟩
  | succ n ih =>
    intro l hl hinv
    obtain ⟨front, m, heq, hflen, hperm, hR⟩ :=
      bpass_spec swapIf R hswapT hswapF htrans (n + 1) l hl
    rcases hinv with ⟨h1, h2⟩
    have hm_take : m ∈ l.take (n + 2) := by
      exact hperm.mem_iff.mp (by simp)
    have hlen_eq : (bpass swapIf (n + 1) l).length = l.length :=
      (bpass_perm swapIf (n + 1) l).length_eq
    have hdrop : (bpass swapIf (n + 1) l).drop (n + 1) = m :: l.drop (n + 2) := by
      have h := List.drop_left front (m :: l.drop (n + 1 + 1))
      rw [hflen] at h
      rw [heq, h]
    have htake : (bpass swapIf (n + 1) l).take (n + 1) = front := by
      have h := List.take_left front (m :: l.drop (n + 1 + 1))
      rw [hflen] at h
      rw [heq, h]
    simp only [bsort_go]
    apply ih (bpass swapIf (n + 1) l) (by omega)
    constructor
    · rw [hdrop]
      refine List.pairwise_cons.mpr ⟨fun y hy => h2 m hm_take y hy, h1⟩
    · intro x hx y hy
      rw [htake] at hx
      rw [hdrop] at hy
      rcases List.mem_cons.mp hy with rfl | hy2
      · exact hR x hx
      · have hx_take : x ∈ l.take (n + 2) :=
          hperm.mem_iff.mp (List.mem_append.mpr (Or.inl hx))
        exact h2 x hx_take y hy2

theorem bubbleSort_sorted
    (hswapT : ∀ a b, swapIf a b = true → R b a)
    (hswapF : ∀ a b, swapIf a b = false → R a b)
    (htrans : ∀ {a b c}, R a b → R b c → R a c)
    (l : List α) : (bubbleSort swapIf l).Pairwise R := by
  unfold bubbleSort
  by_cases h : l.length ≤ 1
  · match l, h with
    | [], _ => simp
    | [a], _ => simp
  · simp only [h, if_false]
    apply bsort_go_sorted swapIf R hswapT hswapF htrans _ _ (by omega)
    constructor
    · have : l.drop (l.length - 1 + 1) = [] := by
        apply List.drop_eq_nil_of_le; omega
      simp [this]
    · intro x _ y hy
      have : l.drop (l.length - 1 + 1) = [] := by
        apply List.drop_eq_nil_of_le; omega
      rw [this] at hy
      simp at hy

/-- A pass never swaps two elements unless the swap condition fires, so any
pairwise relation `S` that is flipped by a firing swap is preserved: this is
the stability of the bubble sort. -/
theorem bpass_pairwise_S (S : α → α → Prop)
    (hS : ∀ a b, swapIf a b = true → S b a) :
    ∀ (k : Nat) (l : List α), l.Pairwise S → (bpass swapIf k l).Pairwise S := by
  intro k
  induction k with
  | zero => intro l h; simpa [bpass] using h
  | succ k ih =>
    intro l h
    match l with
    | [] => simp [bpass]
    | [a] => simp only [bpass]; exact h
    | a :: b :: rest =>
      rcases List.pairwise_cons.mp h with ⟨ha, h2⟩
      rcases List.pairwise_cons.mp h2 with ⟨hb, h3⟩
      by_cases hs : swapIf a b
      · simp only [bpass, hs, if_true]
        refine List.pairwise_cons.mpr ⟨?_, ?_⟩
        · intro x hx
          have hx2 : x ∈ a :: rest := (bpass_perm swapIf k (a :: rest)).mem_iff.mp hx
          rcases List.mem_cons.mp hx2 with rfl | hx3
          · exact hS x b hs
          · exact hb x hx3
        · apply ih
          exact List.pairwise_cons.mpr ⟨fun y hy => ha y (by simp [hy]), h3⟩
      · simp only [bpass, hs, if_false]
        refine List.pairwise_cons.mpr ⟨?_, ?_⟩
        · intro x hx
          have hx2 : x ∈ b :: rest := (bpass_perm swapIf k (b :: rest)).mem_iff.mp hx
          rcases List.mem_cons.mp hx2 with rfl | hx3
          · exact ha x (by simp)
          · exact ha x (by simp [hx3])
        · exact ih _ h2

theorem bsort_go_pairwise_S (S : α → α → Prop)
    (hS : ∀ a b, swapIf a b = true → S b a) :
    ∀ (k : Nat) (l : List α), l.Pairwise S → (bsort_go swapIf k l).Pairwise S := by
  intro k
  induction k with
  | zero => intro l h; simpa [bsort_go] using h
  | succ k ih =>
    intro l h
    simp only [bsort_go]
    exact ih _ (bpass_pairwise_S swapIf S hS (k + 1) l h)

theorem bubbleSort_pairwise_S (S : α → α → Prop)
    (hS : ∀ a b, swapIf a b = true → S b a)
    (l : List α) (h : l.Pairwise S) : (bubbleSort swapIf l).Pairwise S := by
  unfold bubbleSort
  by_cases hlen : l.length ≤ 1
  · simp only [hlen, if_true]
    exact h
  · simp only [hlen, if_false]
    exact bsort_go_pairwise_S swapIf S hS _ l h

end BubbleLemmas

/-! ## Winner selection strategies (simple_auction.move lines 300-385) -/

/-- `select_top_n_winners` of `simple_auction.move` (lines 300-317):
`winner_count = min(n, bid_count)`, sort a copy descending by amount, take
the first `winner_count` elements. -/
def select_top_n_winners (bids : List DecryptedBid) (n : Nat) : List DecryptedBid :=
  let bid_count := bids.length
  let winner_count := if bid_count < n then bid_count else n
  (bubble_sort_desc bids).take winner_count

/-- The averaging loop of `select_closest_to_avg_winners` (lines 364-369):
`total = total + amount` is a `u64` addition, which aborts on overflow
(modelled by `none`). -/
def sum_amounts_u64 (total : Nat) : List DecryptedBid → Option Nat
  | [] => some total
  | b :: rest =>
    if total + b.amount < U64_MOD then sum_amounts_u64 (total + b.amount) rest
    else none

/-- `select_closest_to_avg_winners` of `simple_auction.move` (lines
359-385): the accumulation loop runs first (each `u64` addition aborting
on overflow), then `average = total / bid_count` is a `u64` division,
which aborts when `bid_count == 0` (both aborts modelled by `none`). -/
def select_closest_to_avg_winners (bids : List DecryptedBid) (n : Nat) :
    Option (List DecryptedBid) :=
  let bid_count := bids.length
  let winner_count := if bid_count < n then bid_count else n
  match sum_amounts_u64 0 bids with
  | none => none
  | some total =>
    if bid_count = 0 then none
    else
      let average := total / bid_count
      some ((bubble_sort_by_distance bids average).take winner_count)

/-- The duplicate-avoidance scan of `select_random_n_winners` (lines
341-349): the first index `j < bid_count` not yet selected, `none` when
every index is taken (in which case the loop body pushes nothing). -/
def find_first_unselected (selected : List Nat) (bid_count : Nat) : Option Nat :=
  (List.range bid_count).find? (fun j => !(selected.contains j))

/-- The selection loop of `select_random_n_winners` (lines 329-353),
running `remaining` more iterations with loop counter `i`.  The seed access
`seed[i % seed.length]` aborts on an empty seed (modelled by `none`). -/
def rand_go (seed : List Nat) (bids : List DecryptedBid) :
    Nat → Nat → List Nat → List DecryptedBid → Option (List Nat × List DecryptedBid)
  | _, 0, selected, winners => some (selected, winners)
  | i, remaining + 1, selected, winners =>
    match seed[i % seed.length]? with
    | none => none
    | some random_byte =>
      let bid_count := bids.length
      let random_index := random_byte % bid_count
      if selected.contains random_index then
        match find_first_unselected selected bid_count with
        | some j =>
          rand_go seed bids (i + 1) remaining (selected ++ [j]) (winners ++ [bids.getD j default])
        | none => rand_go seed bids (i + 1) remaining selected winners
      else
        rand_go seed bids (i + 1) remaining (selected ++ [random_index])
          (winners ++ [bids.getD random_index default])

/-- `select_random_n_winners` of `simple_auction.move` (lines 320-356).
The loop condition `i < winner_count && i < bid_count` runs exactly
`winner_count` iterations because `winner_count = min(n, bid_count)` is
already at most `bid_count`. -/
def select_random_n_winners (bids : List DecryptedBid) (n : Nat) (ctx : TxContext) :
    Option (List DecryptedBid) :=
  let bid_count := bids.length
  let winner_count := if bid_count < n then bid_count else n
  match rand_go ctx.digest bids 0 winner_count [] [] with
  | none => none
  | some (_, winners) => some winners

/-! ## Shared correctness lemma for the two sorting strategies -/

/-- The winner prefix returned by a bubble sort: it has `min wc l.length`
elements, is internally ordered by both `R` (the sort order) and `S` (the
stability order), and the remaining elements are all `R`- and `S`-after it. -/
theorem bubble_take_spec {α : Type} (swapIf : α → α → Bool) (R S : α → α → Prop)
    (hswapT : ∀ a b, swapIf a b = true → R b a)
    (hswapF : ∀ a b, swapIf a b = false → R a b)
    (htrans : ∀ {a b c}, R a b → R b c → R a c)
    (hS : ∀ a b, swapIf a b = true → S b a)
    (l : List α) (hPS : l.Pairwise S) (wc : Nat) :
    ((bubbleSort swapIf l).take wc).length = min wc l.length ∧
    ((bubbleSort swapIf l).take wc).Pairwise (fun a b => R a b ∧ S a b) ∧
    ∃ rest, (((bubbleSort swapIf l).take wc) ++ rest).Perm l ∧
      ∀ x ∈ (bubbleSort swapIf l).take wc, ∀ y ∈ rest, R x y ∧ S x y := by
  have hperm : (bubbleSort swapIf l).Perm l := bubbleSort_perm swapIf l
  have hsorted : (bubbleSort swapIf l).Pairwise R :=
    bubbleSort_sorted swapIf R hswapT hswapF htrans l
  have hstable : (bubbleSort swapIf l).Pairwise S :=
    bubbleSort_pairwise_S swapIf S hS l hPS
  have hboth : (bubbleSort swapIf l).Pairwise (fun a b => R a b ∧ S a b) :=
    hsorted.and hstable
  refine ⟨?_, hboth.sublist (List.take_sublist wc _), (bubbleSort swapIf l).drop wc, ?_, ?_⟩
  · rw [List.length_take, hperm.length_eq]
  · rw [List.take_append_drop]
    exact hperm
  · have hsplit := (List.take_append_drop wc (bubbleSort swapIf l)).symm ▸ hboth
    have := List.pairwise_append.mp hsplit
    exact this.2.2

/-- The strict "larger amount first, amount ties broken by earlier origin
index" order in which `select_top_n_winners` emits winners. -/
def topNOrder (a b : DecryptedBid) : Prop :=
  b.amount < a.amount ∨ (a.amount = b.amount ∧ a.index < b.index)

/-- The strict "smaller distance to the mean first, distance ties broken by
earlier origin index" order of `select_closest_to_avg_winners`. -/
def closestOrder (average : Nat) (a b : DecryptedBid) : Prop :=
  dist_to average a < dist_to average b ∨
    (dist_to average a = dist_to average b ∧ a.index < b.index)

/-- C2 — HighestN correctness: for every bid list with strictly increasing
origin indices and every target `n`, `select_top_n_winners` returns exactly
`min n bids.length` bids, in strictly descending amount order with amount
ties resolved in favor of the earlier origin index (`topNOrder`), and these
winners are precisely the largest bids: the non-selected remainder is
`topNOrder`-below every winner. -/
theorem claim_C2_highestN (bids : List DecryptedBid) (n : Nat)
    (hidx : bids.Pairwise fun a b => a.index < b.index) :
    (select_top_n_winners bids n).length = min n bids.length ∧
    (select_top_n_winners bids n).Pairwise topNOrder ∧
    ∃ rest, ((select_top_n_winners bids n) ++ rest).Perm bids ∧
      ∀ x ∈ select_top_n_winners bids n, ∀ y ∈ rest, topNOrder x y := by
  have hswapT : ∀ a b : DecryptedBid,
      (decide (a.amount < b.amount)) = true → a.amount ≤ b.amount := by
    intro a b h; have := of_decide_eq_true h; omega
  have hswapF : ∀ a b : DecryptedBid,
      (decide (a.amount < b.amount)) = false → b.amount ≤ a.amount := by
    intro a b h; have := of_decide_eq_false h; omega
  have htrans : ∀ {a b c : DecryptedBid},
      b.amount ≤ a.amount → c.amount ≤ b.amount → c.amount ≤ a.amount := by
    intro a b c h1 h2; omega
  have hS : ∀ a b : DecryptedBid, (decide (a.amount < b.amount)) = true →
      (b.amount = a.amount → b.index < a.index) := by
    intro a b h hab; have := of_decide_eq_true h; omega
  have hPS : bids.Pairwise (fun a b => a.amount = b.amount → a.index < b.index) := by
    refine List.Pairwise.imp ?_ hidx
    intro a b h hab
    exact h
  have hmain := bubble_take_spec (fun x y => decide (x.amount < y.amount))
    (fun a b => b.amount ≤ a.amount)
    (fun a b => a.amount = b.amount → a.index < b.index)
    hswapT hswapF htrans hS
    bids hPS
    (if bids.length < n then bids.length else n)
  have hsel : select_top_n_winners bids n =
      (bubbleSort (fun x y => decide (x.amount < y.amount)) bids).take
        (if bids.length < n then bids.length else n) := rfl
  rw [hsel]
  obtain ⟨hlen, hpw, rest, hperm, hcross⟩ := hmain
  have himp : ∀ a b : DecryptedBid,
      (b.amount ≤ a.amount ∧ (a.amount = b.amount → a.index < b.index)) → topNOrder a b := by
    intro a b h
    rcases h with ⟨hr, hs⟩
    rcases Nat.eq_or_lt_of_le hr with heq | hlt
    · exact Or.inr ⟨heq.symm, hs heq.symm⟩
    · exact Or.inl hlt
  refine ⟨?_, hpw.imp (fun h => himp _ _ h), rest, hperm, ?_⟩
  · rw [hlen]; split <;> omega
  · intro x hx y hy
    exact himp x y (hcross x hx y hy)

/-- Concrete bid list of the spec's basic highest-N scenario: amounts
`[100, 300, 300, 50]` in arrival order. -/
def topNDemoBids : List DecryptedBid :=
  [⟨10, 100, 7, 0⟩, ⟨11, 300, 7, 1⟩, ⟨12, 300, 7, 2⟩, ⟨13, 50, 7, 3⟩]

/-- Witness for C2 at the spec's scenario: with `winner_count = 2` the
winners are the two 300-amount bids with the earlier-index one first. -/
theorem claim_C2_highestN_witness :
    ((select_top_n_winners topNDemoBids 2).length = min 2 topNDemoBids.length ∧
     (select_top_n_winners topNDemoBids 2).Pairwise topNOrder ∧
     ∃ rest, ((select_top_n_winners topNDemoBids 2) ++ rest).Perm topNDemoBids ∧
       ∀ x ∈ select_top_n_winners topNDemoBids 2, ∀ y ∈ rest, topNOrder x y) ∧
    select_top_n_winners topNDemoBids 2 = [⟨11, 300, 7, 1⟩, ⟨12, 300, 7, 2⟩] :=
  ⟨claim_C2_highestN topNDemoBids 2 (by decide), by decide⟩

/-- The averaging loop succeeds and computes the amount sum whenever that
sum stays below `2^64` (every partial sum is bounded by the total). -/
theorem sum_amounts_u64_eq (bids : List DecryptedBid) :
    ∀ total : Nat, total + (bids.map (fun b => b.amount)).sum < U64_MOD →
      sum_amounts_u64 total bids =
        some (total + (bids.map (fun b => b.amount)).sum) := by
  induction bids with
  | nil => intro total h; simp [sum_amounts_u64]
  | cons b rest ih =>
    intro total h
    simp only [List.map_cons, List.sum_cons] at h ⊢
    have hlt : total + b.amount < U64_MOD := by omega
    simp only [sum_amounts_u64, hlt, if_true]
    rw [ih (total + b.amount) (by omega)]
    congr 1
    omega

/-- C4 counterexample: the claim asserts `select_closest_to_avg_winners`
returns winners for every non-empty bid list, but the averaging loop
accumulates the amounts in a `u64`: two bids of amount `2^63` (each
individually parseable without overflow) drive `total = total + amount` to
`2^64`, so the addition overflows and the Move call aborts instead of
selecting anything. -/
theorem claim_C4_counterexample :
    ([⟨10, 2 ^ 63, 5, 0⟩, ⟨11, 2 ^ 63, 7, 1⟩] : List DecryptedBid) ≠ [] ∧
    U64_MOD ≤ (([⟨10, 2 ^ 63, 5, 0⟩, ⟨11, 2 ^ 63, 7, 1⟩] : List DecryptedBid).map
      (fun b => b.amount)).sum ∧
    select_closest_to_avg_winners [⟨10, 2 ^ 63, 5, 0⟩, ⟨11, 2 ^ 63, 7, 1⟩] 1 = none ∧
    parse_bid_amount [57, 50, 50, 51, 51, 55, 50, 48, 51, 54, 56, 53, 52, 55, 55,
      53, 56, 48, 56] = some (2 ^ 63) := by
  exact ⟨by decide, by decide, by decide, by decide⟩

/-- C4 (amended) — ClosestToMeanN correctness below the `u64` bound: for
every non-empty bid list whose amount sum stays below `2^64`, with
strictly increasing origin indices, and every target `n`,
`select_closest_to_avg_winners` succeeds and returns exactly
`min n bids.length` bids, ordered by ascending distance to the mean with
ties resolved in favor of the earlier origin index (`closestOrder`), and
these winners are precisely the bids closest to the mean, where the mean is
the truncating division of the sum of all amounts of the full bid list by
the full bid count.  When the running sum reaches `2^64` the `u64`
accumulation aborts instead, as the counterexample shows. -/
theorem claim_C4_closestToMean (bids : List DecryptedBid) (n : Nat)
    (hne : bids ≠ [])
    (hsum : (bids.map (fun b => b.amount)).sum < U64_MOD)
    (hidx : bids.Pairwise fun a b => a.index < b.index) :
    ∃ w, select_closest_to_avg_winners bids n = some w ∧
      w.length = min n bids.length ∧
      w.Pairwise (closestOrder ((bids.map (fun b => b.amount)).sum / bids.length)) ∧
      ∃ rest, (w ++ rest).Perm bids ∧
        ∀ x ∈ w, ∀ y ∈ rest,
          closestOrder ((bids.map (fun b => b.amount)).sum / bids.length) x y := by
  set average := (bids.map (fun b => b.amount)).sum / bids.length with haverage
  have hswapT : ∀ a b : DecryptedBid,
      (decide (dist_to average a > dist_to average b)) = true →
      dist_to average b ≤ dist_to average a := by
    intro a b h; have := of_decide_eq_true h; omega
  have hswapF : ∀ a b : DecryptedBid,
      (decide (dist_to average a > dist_to average b)) = false →
      dist_to average a ≤ dist_to average b := by
    intro a b h; have := of_decide_eq_false h; omega
  have htrans : ∀ {a b c : DecryptedBid},
      dist_to average a ≤ dist_to average b → dist_to average b ≤ dist_to average c →
      dist_to average a ≤ dist_to average c := by
    intro a b c h1 h2; omega
  have hS : ∀ a b : DecryptedBid,
      (decide (dist_to average a > dist_to average b)) = true →
      (dist_to average b = dist_to average a → b.index < a.index) := by
    intro a b h hab; have := of_decide_eq_true h; omega
  have hPS : bids.Pairwise
      (fun a b => dist_to average a = dist_to average b → a.index < b.index) := by
    refine List.Pairwise.imp ?_ hidx
    intro a b h hab
    exact h
  have hmain := bubble_take_spec (fun x y => decide (dist_to average x > dist_to average y))
    (fun a b => dist_to average a ≤ dist_to average b)
    (fun a b => dist_to average a = dist_to average b → a.index < b.index)
    hswapT hswapF htrans hS
    bids hPS
    (if bids.length < n then bids.length else n)
  have hlen0 : bids.length ≠ 0 := by
    intro h; exact hne (List.eq_nil_of_length_eq_zero h)
  have hsum2 : sum_amounts_u64 0 bids = some ((bids.map (fun b => b.amount)).sum) := by
    have := sum_amounts_u64_eq bids 0 (by omega)
    simpa using this
  have hsel : select_closest_to_avg_winners bids n =
      some ((bubbleSort (fun x y => decide (dist_to average x > dist_to average y)) bids).take
        (if bids.length < n then bids.length else n)) := by
    unfold select_closest_to_avg_winners
    simp only [hsum2, hlen0, if_false]
    rfl
  obtain ⟨hlen, hpw, rest, hperm, hcross⟩ := hmain
  have himp : ∀ a b : DecryptedBid,
      (dist_to average a ≤ dist_to average b ∧
        (dist_to average a = dist_to average b → a.index < b.index)) →
      closestOrder average a b := by
    intro a b h
    rcases h with ⟨hr, hs⟩
    rcases Nat.eq_or_lt_of_le hr with heq | hlt
    · exact Or.inr ⟨heq, hs heq⟩
    · exact Or.inl hlt
  refine ⟨_, hsel, ?_, hpw.imp (fun h => himp _ _ h), rest, hperm, ?_⟩
  · rw [hlen]; split <;> omega
  · intro x hx y hy
    exact himp x y (hcross x hx y hy)

/-- Concrete bid list for the C4 witness: amounts `[10, 20, 30, 100]`,
mean `160 / 4 = 40`, distances `[30, 20, 10, 60]`. -/
def closestDemoBids : List DecryptedBid :=
  [⟨10, 10, 7, 0⟩, ⟨11, 20, 7, 1⟩, ⟨12, 30, 7, 2⟩, ⟨13, 100, 7, 3⟩]

/-- Witness for the amended C4: the amount sum 160 is far below `2^64`,
and the two winners are the amount-30 and amount-20 bids, closest to the
mean 40. -/
theorem claim_C4_closestToMean_witness :
    (∃ w, select_closest_to_avg_winners closestDemoBids 2 = some w ∧
      w.length = min 2 closestDemoBids.length ∧
      w.Pairwise (closestOrder ((closestDemoBids.map (fun b => b.amount)).sum /
        closestDemoBids.length)) ∧
      ∃ rest, (w ++ rest).Perm closestDemoBids ∧
        ∀ x ∈ w, ∀ y ∈ rest,
          closestOrder ((closestDemoBids.map (fun b => b.amount)).sum /
            closestDemoBids.length) x y) ∧
    select_closest_to_avg_winners closestDemoBids 2 =
      some [⟨12, 30, 7, 2⟩, ⟨11, 20, 7, 1⟩] :=
  ⟨claim_C4_closestToMean closestDemoBids 2 (by decide) (by decide) (by decide), by decide⟩

/-! ## RandomN: totality of the duplicate-avoidance scan -/

/-- Pigeonhole for the linear scan: while fewer indices are selected than
there are bids, the scan from index 0 always finds an unselected index. -/
theorem find_first_unselected_total (sel : List Nat) (bc : Nat)
    (hnd : sel.Nodup) (hcard : sel.length < bc) :
    ∃ j, find_first_unselected sel bc = some j ∧ j < bc ∧ j ∉ sel := by
  have hex : ∃ j, j < bc ∧ j ∉ sel := by
    by_contra hall
    push_neg at hall
    have hsub : Finset.range bc ⊆ sel.toFinset := by
      intro x hx
      rw [List.mem_toFinset]
      exact hall x (Finset.mem_range.mp hx)
    have := Finset.card_le_card hsub
    rw [Finset.card_range, List.toFinset_card_of_nodup hnd] at this
    omega
  obtain ⟨j0, hj0, hj0n⟩ := hex
  have hfind : (List.range bc).find? (fun j => !(sel.contains j)) ≠ none := by
    intro hnone
    have := List.find?_eq_none.mp hnone j0 (List.mem_range.mpr hj0)
    simp_all
  unfold find_first_unselected
  match hj : (List.range bc).find? (fun j => !(sel.contains j)) with
  | none => exact absurd hj hfind
  | some j =>
    refine ⟨j, rfl, ?_, ?_⟩
    · exact List.mem_range.mp (List.mem_of_find?_eq_some hj)
    · have := List.find?_some hj
      simp_all

/-- Invariant of the RandomN selection loop: starting from a duplicate-free
selection that leaves room for `count` more picks, the loop always succeeds,
emits exactly one new distinct index per iteration, and keeps the winner
list equal to the image of the selected indices. -/
theorem rand_go_spec (seed : List Nat) (bids : List DecryptedBid) (hseed : seed ≠ []) :
    ∀ (count i : Nat) (sel : List Nat),
      sel.Nodup → (∀ x ∈ sel, x < bids.length) → sel.length + count ≤ bids.length →
      ∃ selFin, rand_go seed bids i count sel (sel.map (fun j => bids.getD j default)) =
          some (selFin, selFin.map (fun j => bids.getD j default)) ∧
        selFin.Nodup ∧ (∀ x ∈ selFin, x < bids.length) ∧
        selFin.length = sel.length + count := by
  intro count
  induction count with
  | zero =>
    intro i sel hnd hlt hroom
    exact ⟨sel, rfl, hnd, hlt, rfl⟩
  | succ count ih =>
    intro i sel hnd hlt hroom
    have hslen : 0 < seed.length := List.length_pos.mpr hseed
    have hmod : i % seed.length < seed.length := Nat.mod_lt _ hslen
    have hbpos : 0 < bids.length := by omega
    have hbyte : seed[i % seed.length]? = some seed[i % seed.length] :=
      List.getElem?_eq_getElem hmod
    simp only [rand_go, hbyte]
    set random_index := seed[i % seed.length] % bids.length with hri
    have hrilt : random_index < bids.length := Nat.mod_lt _ hbpos
    by_cases hc : sel.contains random_index
    · simp only [hc, if_true]
      obtain ⟨j, hfind, hjlt, hjn⟩ :=
        find_first_unselected_total sel bids.length hnd (by omega)
      simp only [hfind]
      have hnd2 : (sel ++ [j]).Nodup := by
        simp [List.nodup_append, hnd, hjn]
      have hlt2 : ∀ x ∈ sel ++ [j], x < bids.length := by
        intro x hx
        rcases List.mem_append.mp hx with h1 | h2
        · exact hlt x h1
        · simp at h2; omega
      have hmap : sel.map (fun j2 => bids.getD j2 default) ++ [bids.getD j default] =
          (sel ++ [j]).map (fun j2 => bids.getD j2 default) := by
        simp
      rw [hmap]
      obtain ⟨selFin, hrun, hnd3, hlt3, hlen3⟩ :=
        ih (i + 1) (sel ++ [j]) hnd2 hlt2 (by simp; omega)
      refine ⟨selFin, hrun, hnd3, hlt3, ?_⟩
      rw [hlen3]; simp; omega
    · simp only [hc, if_false]
      have hrin : random_index ∉ sel := by
        intro hmem
        simp_all
      have hnd2 : (sel ++ [random_index]).Nodup := by
        simp [List.nodup_append, hnd, hrin]
      have hlt2 : ∀ x ∈ sel ++ [random_index], x < bids.length := by
        intro x hx
        rcases List.mem_append.mp hx with h1 | h2
        · exact hlt x h1
        · simp at h2; omega
      have hmap : sel.map (fun j2 => bids.getD j2 default) ++ [bids.getD random_index default] =
          (sel ++ [random_index]).map (fun j2 => bids.getD j2 default) := by
        simp
      rw [hmap]
      obtain ⟨selFin, hrun, hnd3, hlt3, hlen3⟩ :=
        ih (i + 1) (sel ++ [random_index]) hnd2 hlt2 (by simp; omega)
      refine ⟨selFin, hrun, hnd3, hlt3, ?_⟩
      rw [hlen3]; simp; omega

/-- C3 — RandomN totality and determinism: with a non-empty seed,
`select_random_n_winners` (i) depends only on the transaction digest, so
equal seeds give equal winner lists; (ii) always succeeds, returning the
bids at the selected indices; the selected origin indices are pairwise
distinct, all within range, and exactly `min n bids.length` many. -/
theorem claim_C3_randomN (bids : List DecryptedBid) (n : Nat) (ctx : TxContext)
    (hseed : ctx.digest ≠ []) :
    (∀ ctx2 : TxContext, ctx2.digest = ctx.digest →
      select_random_n_winners bids n ctx2 = select_random_n_winners bids n ctx) ∧
    ∃ sel : List Nat, select_random_n_winners bids n ctx =
        some (sel.map (fun j => bids.getD j default)) ∧
      sel.Nodup ∧ (∀ j ∈ sel, j < bids.length) ∧
      (sel.map (fun j => bids.getD j default)).length = min n bids.length := by
  constructor
  · intro ctx2 hdig
    unfold select_random_n_winners
    rw [hdig]
  · have hroom : (0 : Nat) + (if bids.length < n then bids.length else n) ≤ bids.length := by
      split <;> omega
    obtain ⟨sel, hrun, hnd, hlt, hlen⟩ :=
      rand_go_spec ctx.digest bids hseed
        (if bids.length < n then bids.length else n) 0 [] List.nodup_nil
        (by intro x hx; simp at hx) hroom
    refine ⟨sel, ?_, hnd, hlt, ?_⟩
    · have hdef : select_random_n_winners bids n ctx =
          match rand_go ctx.digest bids 0 (if bids.length < n then bids.length else n) [] [] with
          | none => none
          | some (_, winners) => some winners := rfl
      simp only [List.map_nil] at hrun
      rw [hdef, hrun]
    · rw [List.length_map, hlen]
      simp only [List.length_nil]
      split <;> omega

/-- Concrete inputs for the C3 witness: seed `[7, 3]`, three bids,
`winner_count = 2`. -/
def randDemoBids : List DecryptedBid :=
  [⟨10, 5, 9, 0⟩, ⟨11, 6, 9, 1⟩, ⟨12, 7, 9, 2⟩]

/-- The transaction context used by the C3 witness. -/
def randDemoCtx : TxContext := ⟨1, [7, 3]⟩

/-- Witness for C3 at the concrete inputs above. -/
theorem claim_C3_randomN_witness :
    (∀ ctx2 : TxContext, ctx2.digest = randDemoCtx.digest →
      select_random_n_winners randDemoBids 2 ctx2 =
        select_random_n_winners randDemoBids 2 randDemoCtx) ∧
    ∃ sel : List Nat, select_random_n_winners randDemoBids 2 randDemoCtx =
        some (sel.map (fun j => randDemoBids.getD j default)) ∧
      sel.Nodup ∧ (∀ j ∈ sel, j < randDemoBids.length) ∧
      (sel.map (fun j => randDemoBids.getD j default)).length =
        min 2 randDemoBids.length :=
  claim_C3_randomN randDemoBids 2 randDemoCtx (by decide)

/-! ## C5: revelation -/

/-- The revelation loop, characterised position by position. -/
theorem decrypt_all_go_spec (bids : List EncryptedBid)
    (h : ∀ b ∈ bids, specDigitFold 0 b.encrypted_data < U64_MOD) :
    ∀ i : Nat, ∃ l, decrypt_all_go i bids = some l ∧ l.length = bids.length ∧
      ∀ j : Nat, j < bids.length →
        l[j]? = (bids[j]?).map (fun b =>
          (⟨b.bidder, specDigitFold 0 b.encrypted_data, b.payment_amount, i + j⟩ :
            DecryptedBid)) := by
  induction bids with
  | nil =>
    intro i
    exact ⟨[], rfl, rfl, fun j hj => by simp at hj⟩
  | cons b rest ih =>
    intro i
    have hb : specDigitFold 0 b.encrypted_data < U64_MOD := h b (by simp)
    have hrest : ∀ x ∈ rest, specDigitFold 0 x.encrypted_data < U64_MOD := by
      intro x hx; exact h x (by simp [hx])
    obtain ⟨l2, hrun, hlen, hidxs⟩ := ih hrest (i + 1)
    refine ⟨⟨b.bidder, specDigitFold 0 b.encrypted_data, b.payment_amount, i⟩ :: l2, ?_, ?_, ?_⟩
    · simp only [decrypt_all_go, parse_bid_amount_eq_fold b.encrypted_data hb, hrun]
    · simp [hlen]
    · intro j hj
      match j with
      | 0 => simp
      | j + 1 =>
        simp only [List.getElem?_cons_succ]
        rw [hidxs j (by simp at hj; omega)]
        have : i + 1 + j = i + (j + 1) := by omega
        rw [this]

/-- C5 counterexample: the claim asserts `parse_bid_amount` succeeds on
every payload, but a payload of twenty ASCII `9` bytes folds to
`10^20 - 1 ≥ 2^64`, so the `u64` accumulation overflows and the Move call
aborts; a single such bid makes the whole revelation loop abort. -/
theorem claim_C5_counterexample :
    parse_bid_amount (List.replicate 20 57) = none ∧
    U64_MOD ≤ specDigitFold 0 (List.replicate 20 57) ∧
    decrypt_all [⟨10, List.replicate 20 57, 1⟩] = none := by
  refine ⟨by decide, by decide, by decide⟩

/-- C5 (amended) — lenient parsing and revelation, below the `u64` bound:
for every payload whose accumulated digit value stays below `2^64`,
`parse_bid_amount` succeeds and returns exactly the left-to-right digit
fold that skips non-digit bytes (empty or all-non-digit payloads give 0);
and when every stored payload satisfies this bound, the revelation loop
maps each `EncryptedBid` to exactly one revealed bid, preserving bidder,
payment and origin index, dropping none. -/
theorem claim_C5_parse_amended (bids : List EncryptedBid)
    (h : ∀ b ∈ bids, specDigitFold 0 b.encrypted_data < U64_MOD) :
    (∀ data : List Nat, specDigitFold 0 data < U64_MOD →
      parse_bid_amount data = some (specDigitFold 0 data)) ∧
    ∃ l, decrypt_all bids = some l ∧ l.length = bids.length ∧
      ∀ j : Nat, j < bids.length →
        l[j]? = (bids[j]?).map (fun b =>
          (⟨b.bidder, specDigitFold 0 b.encrypted_data, b.payment_amount, j⟩ :
            DecryptedBid)) := by
  refine ⟨fun data hd => parse_bid_amount_eq_fold data hd, ?_⟩
  obtain ⟨l, hrun, hlen, hidxs⟩ := decrypt_all_go_spec bids h 0
  refine ⟨l, hrun, hlen, ?_⟩
  intro j hj
  rw [hidxs j hj]
  simp

/-- Witness for the amended C5: payloads `"123"` and an empty payload. -/
theorem claim_C5_parse_amended_witness :
    ((∀ data : List Nat, specDigitFold 0 data < U64_MOD →
        parse_bid_amount data = some (specDigitFold 0 data)) ∧
      ∃ l, decrypt_all [⟨10, [49, 50, 51], 5⟩, ⟨11, [], 6⟩] = some l ∧
        l.length = ([⟨10, [49, 50, 51], 5⟩, ⟨11, [], 6⟩] : List EncryptedBid).length ∧
        ∀ j : Nat, j < ([⟨10, [49, 50, 51], 5⟩, ⟨11, [], 6⟩] : List EncryptedBid).length →
          l[j]? = (([⟨10, [49, 50, 51], 5⟩, ⟨11, [], 6⟩] : List EncryptedBid)[j]?).map
            (fun b => (⟨b.bidder, specDigitFold 0 b.encrypted_data, b.payment_amount, j⟩ :
              DecryptedBid))) ∧
    decrypt_all [⟨10, [49, 50, 51], 5⟩, ⟨11, [], 6⟩] =
      some [⟨10, 123, 5, 0⟩, ⟨11, 0, 6, 1⟩] :=
  ⟨claim_C5_parse_amended [⟨10, [49, 50, 51], 5⟩, ⟨11, [], 6⟩] (by decide), by decide⟩

/-! ## C8: the time-lock reveal gate -/

/-- C8 — time-gate monotonicity: for every `u64` deadline, the reveal gate
applied to the key id generated from that deadline is a total function of
the clock: it evaluates (without abort) to `false` at every time strictly
before `end_time` and to `true` at every time at or after `end_time`. -/
theorem claim_C8_time_gate (end_time now : Nat) (h : end_time < U64_MOD) :
    check_time_lock_policy (generate_key_id end_time) now =
      some (decide (end_time ≤ now)) ∧
    (now < end_time → check_time_lock_policy (generate_key_id end_time) now = some false) ∧
    (end_time ≤ now → check_time_lock_policy (generate_key_id end_time) now = some true) := by
  have hpow : (256 : Nat) ^ 8 = 2 ^ 64 := by norm_num
  have hlen8 : (u64_to_le_bytes 8 end_time).length = 8 := u64_to_le_bytes_length 8 end_time
  have hmain : check_time_lock_policy (generate_key_id end_time) now =
      some (decide (end_time ≤ now)) := by
    unfold check_time_lock_policy generate_key_id
    rw [List.take_of_length_le (le_of_eq hlen8), List.drop_eq_nil_of_le (le_of_eq hlen8),
      le_bytes_roundtrip 8 end_time (by rw [hpow]; exact h)]
    simp [hlen8]
  refine ⟨hmain, fun hlt => ?_, fun hge => ?_⟩
  · rw [hmain]; simp; omega
  · rw [hmain]; simp [hge]

/-- Witness for C8 at `end_time = 1000`: closed before the deadline, open
at the deadline. -/
theorem claim_C8_time_gate_witness :
    check_time_lock_policy (generate_key_id 1000) 500 = some false ∧
    check_time_lock_policy (generate_key_id 1000) 1000 = some true :=
  ⟨(claim_C8_time_gate 1000 500 (by decide)).2.1 (by decide),
   (claim_C8_time_gate 1000 1000 (by decide)).2.2 (by decide)⟩

/-! ## Entry functions of simple_auction.move and the mint of
simple_coin_factory.move -/

/-- `SimpleBidPlaced` event of `simple_auction.move` (lines 78-82), minus
the auction id. -/
structure BidPlacedEvent where
  bidder : Nat
  payment_amount : Nat
deriving Repr, DecidableEq

/-- `table::contains(&registry.coins, symbol)`. -/
def registry_contains (registry : SimpleCoinRegistry) (symbol : String) : Bool :=
  registry.coins.any (fun p => p.1 == symbol)

/-- `table::borrow_mut` + `total_minted = total_minted + amount` of
`mint_simple_coin`: aborts (`.oob`) when the symbol is absent and
(`.overflow`) when the `u64` counter would overflow. -/
def update_total_minted (amount : Nat) (symbol : String) :
    List (String × Nat) → Except MoveAbort (List (String × Nat))
  | [] => .error .oob
  | (s, m) :: rest =>
    if s = symbol then
      if m + amount < U64_MOD then .ok ((s, m + amount) :: rest)
      else .error .overflow
    else
      match update_total_minted amount symbol rest with
      | .error e => .error e
      | .ok r => .ok ((s, m) :: r)

/-- `mint_simple_coin` of `simple_coin_factory.move` (lines 170-204):
asserts `mintable`, `amount > 0` and symbol registration, then updates the
supply counters (each a `u64` addition that aborts on overflow) and
transfers a fresh coin to the recipient (recorded as a `MintEvent`). -/
def mint_simple_coin (registry : SimpleCoinRegistry) (treasury : SimpleTreasuryCap)
    (amount : Nat) (recipient : Nat) :
    Except MoveAbort (SimpleCoinRegistry × SimpleTreasuryCap × MintEvent) :=
  if treasury.mintable = false then .error (.code E_NOT_MINTABLE)
  else if amount = 0 then .error (.code E_INVALID_AMOUNT)
  else if registry_contains registry treasury.symbol = false then
    .error (.code E_SYMBOL_NOT_FOUND)
  else if U64_MOD ≤ treasury.total_supply + amount then .error .overflow
  else
    match update_total_minted amount treasury.symbol registry.coins with
    | .error e => .error e
    | .ok coins2 =>
      .ok (⟨coins2⟩, { treasury with total_supply := treasury.total_supply + amount },
        ⟨treasury.symbol, amount, recipient⟩)

/-- `create_simple_auction` of `simple_auction.move` (lines 91-143); the
`_registry` parameter is never read, the emitted event is implied by the
returned auction. -/
def create_simple_auction (treasury_cap : SimpleTreasuryCap)
    (total_supply winner_count strategy start_time end_time : Nat)
    (now : Nat) (ctx : TxContext) : Except MoveAbort SimpleAuction :=
  if STRATEGY_CLOSEST_TO_AVG < strategy then .error (.code EInvalidStrategy)
  else if end_time ≤ now then .error (.code EAuctionEnded)
  else if end_time ≤ start_time then .error (.code EAuctionEnded)
  else .ok ⟨ctx.sender, treasury_cap.symbol, total_supply, winner_count, strategy,
    start_time, end_time, [], 0, false, treasury_cap⟩

/-- `place_simple_bid` of `simple_auction.move` (lines 146-179): the four
asserts in source order, then the payment joins the pool and the encrypted
bid is appended. -/
def place_simple_bid (auction : SimpleAuction) (encrypted_bid_data : List Nat)
    (payment : Nat) (now : Nat) (ctx : TxContext) :
    Except MoveAbort (SimpleAuction × BidPlacedEvent) :=
  if now < auction.start_time then .error (.code EAuctionNotStarted)
  else if auction.end_time ≤ now then .error (.code EAuctionEnded)
  else if auction.finalized then .error (.code EAlreadyFinalized)
  else if payment = 0 then .error (.code EInsufficientPayment)
  else .ok ({ auction with
      payment_pool := auction.payment_pool + payment,
      encrypted_bids := auction.encrypted_bids ++ [⟨ctx.sender, encrypted_bid_data, payment⟩] },
    ⟨ctx.sender, payment⟩)

/-- The refund loop of `finalize_simple_auction` (lines 262-271) and of
`cancel_simple_auction` (lines 469-480): for each recorded bid with a
positive `payment_amount`, `balance::split` that amount off the pool
(aborting with `.splitUnderflow` when the pool is too small) and transfer
it to the bidder.  Returns the refunds issued as `(bidder, amount)` pairs
and the remaining pool. -/
def refund_all (bids : List EncryptedBid) (pool : Nat) :
    Except MoveAbort (List (Nat × Nat) × Nat) :=
  match bids with
  | [] => .ok ([], pool)
  | b :: rest =>
    if 0 < b.payment_amount then
      if b.payment_amount ≤ pool then
        match refund_all rest (pool - b.payment_amount) with
        | .error e => .error e
        | .ok (refunds, p2) => .ok ((b.bidder, b.payment_amount) :: refunds, p2)
      else .error .splitUnderflow
    else refund_all rest pool

/-- The token allocation loop of `finalize_simple_auction` (lines
245-258): mint `amount_per_winner` to each winner in order, threading the
registry and the treasury cap. -/
def mint_to_winners (registry : SimpleCoinRegistry) (treasury : SimpleTreasuryCap)
    (winners : List DecryptedBid) (amount_per_winner : Nat) :
    Except MoveAbort (SimpleCoinRegistry × SimpleTreasuryCap × List MintEvent) :=
  match winners with
  | [] => .ok (registry, treasury, [])
  | w :: rest =>
    match mint_simple_coin registry treasury amount_per_winner w.bidder with
    | .error e => .error e
    | .ok (r2, t2, ev) =>
      match mint_to_winners r2 t2 rest amount_per_winner with
      | .error e => .error e
      | .ok (r3, t3, evs) => .ok (r3, t3, ev :: evs)

/-- The strategy dispatch of `finalize_simple_auction` (lines 231-237):
`TOP_N` when `strategy == 0`, `RANDOM_N` when `strategy == 1`, and the
closest-to-average selection otherwise. -/
def select_winners (auction : SimpleAuction) (decrypted_bids : List DecryptedBid)
    (ctx : TxContext) : Except MoveAbort (List DecryptedBid) :=
  if auction.strategy = STRATEGY_TOP_N then
    .ok (select_top_n_winners decrypted_bids auction.winner_count)
  else if auction.strategy = STRATEGY_RANDOM_N then
    match select_random_n_winners decrypted_bids auction.winner_count ctx with
    | none => .error .oob
    | some w => .ok w
  else
    match select_closest_to_avg_winners decrypted_bids auction.winner_count with
    | none => .error .divZero
    | some w => .ok w

/-- The allocation step of `finalize_simple_auction` (lines 242-259): only
mint when there is at least one winner. -/
def mint_phase (registry : SimpleCoinRegistry) (auction : SimpleAuction)
    (winners : List DecryptedBid) :
    Except MoveAbort (SimpleCoinRegistry × SimpleTreasuryCap × List MintEvent) :=
  if 0 < winners.length then
    mint_to_winners registry auction.treasury_cap winners
      (auction.total_supply / winners.length)
  else .ok (registry, auction.treasury_cap, [])

/-- Everything a successful `finalize_simple_auction` produces: the final
auction and registry, the selected winners, the mint transfers, the refunds
issued, and the `winner_count` of the emitted `SimpleAuctionFinalized`
event. -/
structure FinalizeResult where
  auction : SimpleAuction
  registry : SimpleCoinRegistry
  winners : List DecryptedBid
  mints : List MintEvent
  refunds : List (Nat × Nat)
  event_winner_count : Nat
deriving Repr, DecidableEq

/-- `finalize_simple_auction` of `simple_auction.move` (lines 191-277):
the three asserts in source order, the `finalized := true` write, the
early return on an empty bid list, then revelation, selection, allocation
and the refund loop. -/
def finalize_simple_auction (auction : SimpleAuction) (registry : SimpleCoinRegistry)
    (now : Nat) (ctx : TxContext) : Except MoveAbort FinalizeResult :=
  if now < auction.end_time then .error (.code EAuctionNotEnded)
  else if ctx.sender ≠ auction.creator then .error (.code ENotAuctionCreator)
  else if auction.finalized then .error (.code EAlreadyFinalized)
  else if auction.encrypted_bids.length = 0 then
    .ok ⟨{ auction with finalized := true }, registry, [], [], [], 0⟩
  else
    match decrypt_all auction.encrypted_bids with
    | none => .error .overflow
    | some decrypted_bids =>
      match select_winners auction decrypted_bids ctx with
      | .error e => .error e
      | .ok winners =>
        match mint_phase registry auction winners with
        | .error e => .error e
        | .ok (r2, t2, mints) =>
          match refund_all auction.encrypted_bids auction.payment_pool with
          | .error e => .error e
          | .ok (refunds, pool2) =>
            .ok ⟨{ auction with
                    finalized := true
                    treasury_cap := t2
                    payment_pool := pool2 },
                  r2, winners, mints, refunds, winners.length⟩

/-- `cancel_simple_auction` of `simple_auction.move` (lines 444-489): the
two asserts in source order, the refund loop, `balance::destroy_zero` on
the leftover pool (aborting when nonzero), and the treasury cap returned to
the creator.  The result is the refunds issued and the returned cap with
its recipient. -/
def cancel_simple_auction (auction : SimpleAuction) (now : Nat) (ctx : TxContext) :
    Except MoveAbort (List (Nat × Nat) × SimpleTreasuryCap × Nat) :=
  if auction.start_time ≤ now then .error (.code EAuctionNotStarted)
  else if ctx.sender ≠ auction.creator then .error (.code ENotAuctionCreator)
  else
    match refund_all auction.encrypted_bids auction.payment_pool with
    | .error e => .error e
    | .ok (refunds, pool2) =>
      if pool2 = 0 then .ok (refunds, auction.treasury_cap, auction.creator)
      else .error .nonZeroDestroy

/-! ## C7: bid intake -/

/-- C7 — bid-intake failure semantics, following the assert order of the
source: `NotStarted` before the window, `Ended` from `end_time` on (so the
`t = end_time` boundary is rejected), `AlreadyFinalized` next, and
`EInsufficientPayment` (the spec's `InvalidPayment`) for a zero payment; on
a non-finalized auction the bid is appended and the payment merged exactly
when `start_time <= now < end_time` and `payment > 0`; every failure
returns an error, i.e. aborts with no state change. -/
theorem claim_C7_bid_intake (a : SimpleAuction) (data : List Nat) (payment now : Nat)
    (ctx : TxContext) :
    (now < a.start_time →
      place_simple_bid a data payment now ctx = .error (.code EAuctionNotStarted)) ∧
    (a.start_time ≤ now → a.end_time ≤ now →
      place_simple_bid a data payment now ctx = .error (.code EAuctionEnded)) ∧
    (a.start_time ≤ now → now < a.end_time → a.finalized = true →
      place_simple_bid a data payment now ctx = .error (.code EAlreadyFinalized)) ∧
    (a.start_time ≤ now → now < a.end_time → a.finalized = false → payment = 0 →
      place_simple_bid a data payment now ctx = .error (.code EInsufficientPayment)) ∧
    (a.finalized = false →
      ((∃ r, place_simple_bid a data payment now ctx = .ok r) ↔
        (a.start_time ≤ now ∧ now < a.end_time ∧ 0 < payment))) ∧
    (∀ (a2 : SimpleAuction) (ev : BidPlacedEvent),
      place_simple_bid a data payment now ctx = .ok (a2, ev) →
      a2.encrypted_bids = a.encrypted_bids ++ [⟨ctx.sender, data, payment⟩] ∧
      a2.payment_pool = a.payment_pool + payment ∧
      a2.finalized = a.finalized ∧ a2.start_time = a.start_time ∧
      a2.end_time = a.end_time ∧ ev = ⟨ctx.sender, payment⟩) := by
  refine ⟨fun h1 => ?_, fun h1 h2 => ?_, fun h1 h2 h3 => ?_, fun h1 h2 h3 h4 => ?_,
    fun hf => ⟨fun hok => ?_, fun hcond => ?_⟩, fun a2 ev h => ?_⟩
  · simp [place_simple_bid, h1]
  · have hx : ¬ now < a.start_time := by omega
    simp [place_simple_bid, hx, h2]
  · have hx : ¬ now < a.start_time := by omega
    have hy : ¬ a.end_time ≤ now := by omega
    simp [place_simple_bid, hx, hy, h3]
  · have hx : ¬ now < a.start_time := by omega
    have hy : ¬ a.end_time ≤ now := by omega
    simp [place_simple_bid, hx, hy, h3, h4]
  · obtain ⟨r, hr⟩ := hok
    unfold place_simple_bid at hr
    split_ifs at hr with hA hB hC hD
    exact ⟨by omega, by omega, by omega⟩
  · obtain ⟨h1, h2, h3⟩ := hcond
    have hx : ¬ now < a.start_time := by omega
    have hy : ¬ a.end_time ≤ now := by omega
    have hz : ¬ payment = 0 := by omega
    refine ⟨({ a with
        payment_pool := a.payment_pool + payment,
        encrypted_bids := a.encrypted_bids ++ [⟨ctx.sender, data, payment⟩] },
      ⟨ctx.sender, payment⟩), ?_⟩
    simp [place_simple_bid, hx, hy, hf, hz]
  · unfold place_simple_bid at h
    split_ifs at h with hA hB hC hD
    simp only [Except.ok.injEq, Prod.mk.injEq] at h
    obtain ⟨ha2, hev⟩ := h
    subst ha2
    subst hev
    simp

/-- Concrete non-finalized auction (window `[10, 20)`) for the C7 and C1
witnesses. -/
def bidDemoAuction : SimpleAuction :=
  ⟨1, "TKN", 1000, 2, 0, 10, 20, [], 0, false, ⟨"TKN", 0, true⟩⟩

/-- Witness for C7 at the spec's boundary scenario: a bid at exactly
`t = end_time = 20` is rejected with `Ended`, a bid at `t = 19` is
accepted. -/
theorem claim_C7_bid_intake_witness :
    place_simple_bid bidDemoAuction [49] 5 20 ⟨2, []⟩ = .error (.code EAuctionEnded) ∧
    ∃ r, place_simple_bid bidDemoAuction [49] 5 19 ⟨2, []⟩ = .ok r :=
  ⟨(claim_C7_bid_intake bidDemoAuction [49] 5 20 ⟨2, []⟩).2.1 (by decide) (by decide),
   ((claim_C7_bid_intake bidDemoAuction [49] 5 19 ⟨2, []⟩).2.2.2.2.1 (by decide)).mpr
     ⟨by decide, by decide, by decide⟩⟩

/-! ## C1: escrow conservation -/

/-- The sum of the recorded bids' `payment_amount` fields. -/
def sum_payments (bids : List EncryptedBid) : Nat :=
  (bids.map (fun b => b.payment_amount)).sum

/-- The total amount of a refund list. -/
def sum_refunds (refunds : List (Nat × Nat)) : Nat :=
  (refunds.map (fun r => r.2)).sum

/-- Under the escrow invariant (`pool` equals the sum of the recorded
payments) the refund loop never underflows: it refunds every bid with a
positive payment in full and drains the pool to exactly zero. -/
theorem refund_all_conserves : ∀ (bids : List EncryptedBid) (pool : Nat),
    pool = sum_payments bids →
    refund_all bids pool =
      .ok (bids.filterMap (fun b =>
        if 0 < b.payment_amount then some (b.bidder, b.payment_amount) else none), 0) ∧
    sum_refunds (bids.filterMap (fun b =>
      if 0 < b.payment_amount then some (b.bidder, b.payment_amount) else none)) = pool := by
  intro bids
  induction bids with
  | nil =>
    intro pool hp
    simp [sum_payments] at hp
    subst hp
    simp [refund_all, sum_refunds]
  | cons b rest ih =>
    intro pool hp
    have hp2 : pool = b.payment_amount + sum_payments rest := by
      simp [sum_payments] at hp ⊢
      omega
    by_cases hpos : 0 < b.payment_amount
    · have hle : b.payment_amount ≤ pool := by omega
      obtain ⟨hrun, hsum⟩ := ih (pool - b.payment_amount) (by omega)
      constructor
      · simp only [refund_all, hpos, if_true, hle, hrun]
        simp [List.filterMap_cons, hpos]
      · simp only [List.filterMap_cons, hpos, if_true]
        simp only [sum_refunds, List.map_cons, List.sum_cons] at hsum ⊢
        omega
    · have hz : b.payment_amount = 0 := by omega
      obtain ⟨hrun, hsum⟩ := ih pool (by omega)
      constructor
      · simp only [refund_all, hpos, if_false]
        rw [hrun]
        simp [List.filterMap_cons, hpos]
      · simp only [List.filterMap_cons, hpos, if_false]
        exact hsum

/-- Inversion of a successful `finalize_simple_auction`: the guards held,
the flag is set, the time window is unchanged, and the outputs come from
the refund loop and the mint phase (or the empty-bid early return). -/
theorem finalize_ok_inv (a : SimpleAuction) (reg : SimpleCoinRegistry) (now : Nat)
    (ctx : TxContext) (r : FinalizeResult)
    (h : finalize_simple_auction a reg now ctx = .ok r) :
    a.end_time ≤ now ∧ ctx.sender = a.creator ∧ a.finalized = false ∧
    r.auction.finalized = true ∧
    r.auction.start_time = a.start_time ∧ r.auction.end_time = a.end_time ∧
    r.event_winner_count = r.winners.length ∧
    ((a.encrypted_bids = [] ∧ r.winners = [] ∧ r.mints = [] ∧ r.refunds = [] ∧
      r.auction.payment_pool = a.payment_pool) ∨
     (refund_all a.encrypted_bids a.payment_pool = .ok (r.refunds, r.auction.payment_pool) ∧
      mint_phase reg a r.winners = .ok (r.registry, r.auction.treasury_cap, r.mints))) := by
  unfold finalize_simple_auction at h
  split_ifs at h with h1 h2 h3 h4
  · -- empty-bid early return
    simp only [Except.ok.injEq] at h
    subst h
    have hbids : a.encrypted_bids = [] := List.eq_nil_of_length_eq_zero h4
    refine ⟨by omega, by tauto, by simpa using h3, rfl, rfl, rfl, rfl, Or.inl ?_⟩
    exact ⟨hbids, rfl, rfl, rfl, rfl⟩
  · cases hdec : decrypt_all a.encrypted_bids with
    | none => simp [hdec] at h
    | some decrypted_bids =>
      simp only [hdec] at h
      cases hsel : select_winners a decrypted_bids ctx with
      | error e => simp [hsel] at h
      | ok winners =>
        simp only [hsel] at h
        cases hmint : mint_phase reg a winners with
        | error e => simp [hmint] at h
        | ok trip =>
          obtain ⟨r2, t2, mints⟩ := trip
          simp only [hmint] at h
          cases href : refund_all a.encrypted_bids a.payment_pool with
          | error e => simp [href] at h
          | ok pr =>
            obtain ⟨refunds, pool2⟩ := pr
            simp only [href, Except.ok.injEq] at h
            subst h
            refine ⟨by omega, by tauto, by simpa using h3, rfl, rfl, rfl, rfl,
              Or.inr ⟨?_, ?_⟩⟩
            · simp
            · simpa using hmint

/-- C1 — escrow conservation: (i) every successful `place_simple_bid`
preserves the invariant "payment pool = sum of recorded payments", since it
joins exactly the payment it records; (ii) whenever
`finalize_simple_auction` completes on an auction satisfying that
invariant, the refund loop has issued each bidder exactly that bid's
`payment_amount`, the total refunded equals the total collected, and the
payment pool is exactly zero afterwards. -/
theorem claim_C1_escrow_conservation :
    (∀ (a : SimpleAuction) (data : List Nat) (payment now : Nat) (ctx : TxContext)
        (a2 : SimpleAuction) (ev : BidPlacedEvent),
      place_simple_bid a data payment now ctx = .ok (a2, ev) →
      a.payment_pool = sum_payments a.encrypted_bids →
      a2.payment_pool = sum_payments a2.encrypted_bids) ∧
    (∀ (a : SimpleAuction) (reg : SimpleCoinRegistry) (now : Nat) (ctx : TxContext)
        (r : FinalizeResult),
      finalize_simple_auction a reg now ctx = .ok r →
      a.payment_pool = sum_payments a.encrypted_bids →
      r.refunds = a.encrypted_bids.filterMap (fun b =>
        if 0 < b.payment_amount then some (b.bidder, b.payment_amount) else none) ∧
      sum_refunds r.refunds = sum_payments a.encrypted_bids ∧
      r.auction.payment_pool = 0) := by
  constructor
  · intro a data payment now ctx a2 ev h hinv
    unfold place_simple_bid at h
    split_ifs at h with hA hB hC hD
    simp only [Except.ok.injEq, Prod.mk.injEq] at h
    obtain ⟨ha2, _⟩ := h
    subst ha2
    simp [sum_payments, hinv]
  · intro a reg now ctx r h hinv
    obtain ⟨-, -, -, -, -, -, -, hmain⟩ := finalize_ok_inv a reg now ctx r h
    rcases hmain with ⟨hbids, -, -, hrefunds, hpool⟩ | ⟨href, -⟩
    · rw [hbids] at hinv
      simp [sum_payments] at hinv
      rw [hbids]
      simp [hrefunds, sum_refunds, hpool, hinv, sum_payments]
    · obtain ⟨hrun, hsum⟩ := refund_all_conserves a.encrypted_bids a.payment_pool hinv
      rw [hrun] at href
      simp only [Except.ok.injEq, Prod.mk.injEq] at href
      obtain ⟨hrefunds, hpool⟩ := href
      refine ⟨hrefunds.symm, ?_, hpool.symm⟩
      rw [← hrefunds]
      omega

/-! ## Concrete demonstration data shared by the C1, C6 and C9 claims -/

/-- A registry with the symbol `TKN` registered and nothing minted yet. -/
def demoRegistry : SimpleCoinRegistry := ⟨[("TKN", 0)]⟩

/-- A non-finalized auction (supply 100, one winner, TopN, window
`[10, 20)`) holding two bids of payments 5 and 7 and a pool of 12. -/
def demoSettleAuction : SimpleAuction :=
  ⟨1, "TKN", 100, 1, 0, 10, 20, [⟨2, [49], 5⟩, ⟨3, [50], 7⟩], 12, false, ⟨"TKN", 0, true⟩⟩

/-- The result of finalizing `demoSettleAuction` at time 25 by the
creator: bid 3 (amount 2) wins, is minted the whole supply, and both bids
are refunded in full. -/
def demoSettleResult : FinalizeResult :=
  ⟨⟨1, "TKN", 100, 1, 0, 10, 20, [⟨2, [49], 5⟩, ⟨3, [50], 7⟩], 0, true, ⟨"TKN", 100, true⟩⟩,
   ⟨[("TKN", 100)]⟩, [⟨3, 2, 7, 1⟩], [⟨"TKN", 100, 3⟩], [(2, 5), (3, 7)], 1⟩

/-- `bidDemoAuction` after a successful 5-SUI bid by address 2. -/
def bidDemoPlaced : SimpleAuction :=
  { bidDemoAuction with payment_pool := 5, encrypted_bids := [⟨2, [49], 5⟩] }

/-- Witness for C1: the concrete bid placement preserves the pool
invariant, and the concrete settlement refunds both bids in full, totalling
the collected 12, with a pool of exactly zero. -/
theorem claim_C1_escrow_conservation_witness :
    bidDemoPlaced.payment_pool = sum_payments bidDemoPlaced.encrypted_bids ∧
    (demoSettleResult.refunds = demoSettleAuction.encrypted_bids.filterMap (fun b =>
        if 0 < b.payment_amount then some (b.bidder, b.payment_amount) else none) ∧
      sum_refunds demoSettleResult.refunds = sum_payments demoSettleAuction.encrypted_bids ∧
      demoSettleResult.auction.payment_pool = 0) :=
  ⟨claim_C1_escrow_conservation.1 bidDemoAuction [49] 5 15 ⟨2, []⟩ bidDemoPlaced ⟨2, 5⟩
      (by rfl) (by decide),
   claim_C1_escrow_conservation.2 demoSettleAuction demoRegistry 25 ⟨1, [9]⟩ demoSettleResult
      (by rfl) (by decide)⟩

/-! ## C6: re-entrant finalize -/

/-- An already-finalized auction (empty bid list, window `[10, 20)`). -/
def finDemoAuction : SimpleAuction :=
  ⟨1, "TKN", 100, 1, 0, 10, 20, [], 0, true, ⟨"TKN", 0, true⟩⟩

/-- C6 counterexample: the claim says every further call to
`finalize_simple_auction` on a finalized auction fails with
`AlreadyFinalized`, but the creator check precedes the finalized check, so
a non-creator calling after `end_time` gets `ENotAuctionCreator`
instead. -/
theorem claim_C6_counterexample :
    finDemoAuction.finalized = true ∧
    finDemoAuction.end_time ≤ 25 ∧
    finalize_simple_auction finDemoAuction demoRegistry 25 ⟨2, [9]⟩ =
      .error (.code ENotAuctionCreator) ∧
    MoveAbort.code ENotAuctionCreator ≠ MoveAbort.code EAlreadyFinalized := by
  exact ⟨rfl, by decide, by rfl, by decide⟩

/-- C6 (amended) — idempotent terminality: every further call to
`finalize_simple_auction` on a finalized auction fails with some error (a
Move abort, hence no state mutation and never a silent no-op); the error is
`EAlreadyFinalized` exactly when the earlier guards pass, i.e. for the
creator calling at or after `end_time`; a call before `end_time` fails with
`EAuctionNotEnded` and a non-creator call after `end_time` fails with
`ENotAuctionCreator`. -/
theorem claim_C6_finalize_amended (a : SimpleAuction) (reg : SimpleCoinRegistry)
    (now : Nat) (ctx : TxContext) (hfin : a.finalized = true) :
    (∃ e, finalize_simple_auction a reg now ctx = .error e) ∧
    (now < a.end_time →
      finalize_simple_auction a reg now ctx = .error (.code EAuctionNotEnded)) ∧
    (a.end_time ≤ now → ctx.sender ≠ a.creator →
      finalize_simple_auction a reg now ctx = .error (.code ENotAuctionCreator)) ∧
    (a.end_time ≤ now → ctx.sender = a.creator →
      finalize_simple_auction a reg now ctx = .error (.code EAlreadyFinalized)) := by
  refine ⟨?_, fun h1 => ?_, fun h1 h2 => ?_, fun h1 h2 => ?_⟩
  · by_cases h1 : now < a.end_time
    · exact ⟨.code EAuctionNotEnded, by simp [finalize_simple_auction, h1]⟩
    · by_cases h2 : ctx.sender = a.creator
      · exact ⟨.code EAlreadyFinalized, by simp [finalize_simple_auction, h1, h2, hfin]⟩
      · exact ⟨.code ENotAuctionCreator, by simp [finalize_simple_auction, h1, h2]⟩
  · simp [finalize_simple_auction, h1]
  · have hx : ¬ now < a.end_time := by omega
    simp [finalize_simple_auction, hx, h2]
  · have hx : ¬ now < a.end_time := by omega
    simp [finalize_simple_auction, hx, h2, hfin]

/-- Witness for the amended C6: the creator retrying after the deadline
gets exactly `EAlreadyFinalized`. -/
theorem claim_C6_finalize_amended_witness :
    finalize_simple_auction finDemoAuction demoRegistry 25 ⟨1, [9]⟩ =
      .error (.code EAlreadyFinalized) :=
  (claim_C6_finalize_amended finDemoAuction demoRegistry 25 ⟨1, [9]⟩
    (by decide)).2.2.2 (by decide) (by decide)

/-! ## C9: distribution share truncation -/

/-- An auction whose supply (1) is smaller than its winner count (2), so
the per-winner share truncates to zero. -/
def zeroShareAuction : SimpleAuction :=
  ⟨1, "TKN", 1, 2, 0, 10, 20, [⟨2, [49], 5⟩, ⟨3, [50], 7⟩], 12, false, ⟨"TKN", 0, true⟩⟩

/-- C9 counterexample: the claim says each of the `k` selected winners is
minted exactly `total_supply / k`; with `total_supply = 1` and `k = 2` that
share is 0 and `mint_simple_coin` asserts `amount > 0`, so finalize aborts
with `E_INVALID_AMOUNT` — nobody is minted anything and the auction does
not settle at all. -/
theorem claim_C9_counterexample :
    zeroShareAuction.total_supply / 2 = 0 ∧
    finalize_simple_auction zeroShareAuction demoRegistry 25 ⟨1, [9]⟩ =
      .error (.code E_INVALID_AMOUNT) := by
  exact ⟨by decide, by rfl⟩

/-- Inversion of a successful `mint_simple_coin`: the event records the
treasury symbol, the requested amount (necessarily positive) and the
recipient, and the symbol is preserved. -/
theorem mint_simple_coin_ok_inv (reg : SimpleCoinRegistry) (t : SimpleTreasuryCap)
    (amount recipient : Nat) (r2 : SimpleCoinRegistry) (t2 : SimpleTreasuryCap)
    (ev : MintEvent)
    (h : mint_simple_coin reg t amount recipient = .ok (r2, t2, ev)) :
    ev = ⟨t.symbol, amount, recipient⟩ ∧ t2.symbol = t.symbol ∧ 0 < amount := by
  unfold mint_simple_coin at h
  split_ifs at h with h1 h2 h3 h4
  cases hupd : update_total_minted amount t.symbol reg.coins with
  | error e => simp [hupd] at h
  | ok coins2 =>
    simp only [hupd, Except.ok.injEq, Prod.mk.injEq] at h
    obtain ⟨-, ht2, hev⟩ := h
    subst ht2
    subst hev
    exact ⟨rfl, rfl, by omega⟩

/-- Inversion of the allocation loop: every winner is minted the same
amount (positive as soon as there is a winner) under the treasury symbol,
in winner order. -/
theorem mint_to_winners_ok_inv : ∀ (ws : List DecryptedBid) (reg : SimpleCoinRegistry)
    (t : SimpleTreasuryCap) (amt : Nat) (r2 : SimpleCoinRegistry)
    (t2 : SimpleTreasuryCap) (evs : List MintEvent),
    mint_to_winners reg t ws amt = .ok (r2, t2, evs) →
    evs = ws.map (fun w => (⟨t.symbol, amt, w.bidder⟩ : MintEvent)) ∧
    t2.symbol = t.symbol ∧ (ws ≠ [] → 0 < amt) := by
  intro ws
  induction ws with
  | nil =>
    intro reg t amt r2 t2 evs h
    simp only [mint_to_winners, Except.ok.injEq, Prod.mk.injEq] at h
    obtain ⟨-, ht, hevs⟩ := h
    subst ht
    subst hevs
    simp
  | cons w rest ih =>
    intro reg t amt r2 t2 evs h
    simp only [mint_to_winners] at h
    cases hm : mint_simple_coin reg t amt w.bidder with
    | error e => simp [hm] at h
    | ok trip =>
      obtain ⟨ra, ta, ev⟩ := trip
      simp only [hm] at h
      cases hrest : mint_to_winners ra ta rest amt with
      | error e => simp [hrest] at h
      | ok trip2 =>
        obtain ⟨rb, tb, evs2⟩ := trip2
        simp only [hrest, Except.ok.injEq, Prod.mk.injEq] at h
        obtain ⟨-, htb, hevs⟩ := h
        obtain ⟨hev, hsym, hpos⟩ := mint_simple_coin_ok_inv reg t amt w.bidder ra ta ev hm
        obtain ⟨hevs2, hsym2, -⟩ := ih ra ta amt rb tb evs2 hrest
        subst hevs
        subst htb
        rw [hsym] at hevs2
        refine ⟨?_, ?_, fun _ => hpos⟩
        · rw [hev, hevs2]
          simp
        · rw [hsym2, hsym]

/-- The sum of a constant-valued map. -/
theorem sum_map_const_nat {α : Type} (l : List α) (c : Nat) :
    (l.map (fun _ => c)).sum = l.length * c := by
  induction l with
  | nil => simp
  | cons x xs ih => simp [ih, Nat.succ_mul]; omega

/-- C9 (amended) — distribution share truncation: whenever
`finalize_simple_auction` completes with a non-empty winner list of length
`k`, each winner was minted exactly `total_supply / k` (truncating
division, necessarily positive — a zero share makes the mint, and hence
the whole finalize, abort instead, as the counterexample shows), so the
total minted is `k * (total_supply / k) <= total_supply` and the remainder
`total_supply mod k` is distributed to no one. -/
theorem claim_C9_distribution_amended (a : SimpleAuction) (reg : SimpleCoinRegistry)
    (now : Nat) (ctx : TxContext) (r : FinalizeResult)
    (h : finalize_simple_auction a reg now ctx = .ok r)
    (hk : 0 < r.winners.length) :
    0 < a.total_supply / r.winners.length ∧
    r.mints = r.winners.map (fun w =>
      (⟨a.treasury_cap.symbol, a.total_supply / r.winners.length, w.bidder⟩ : MintEvent)) ∧
    (r.mints.map (fun m => m.amount)).sum =
      r.winners.length * (a.total_supply / r.winners.length) ∧
    r.winners.length * (a.total_supply / r.winners.length) ≤ a.total_supply := by
  obtain ⟨-, -, -, -, -, -, -, hmain⟩ := finalize_ok_inv a reg now ctx r h
  rcases hmain with ⟨-, hw, -, -, -⟩ | ⟨-, hmint⟩
  · rw [hw] at hk
    simp at hk
  · unfold mint_phase at hmint
    rw [if_pos hk] at hmint
    obtain ⟨hevs, -, hpos⟩ :=
      mint_to_winners_ok_inv r.winners reg a.treasury_cap
        (a.total_supply / r.winners.length) r.registry r.auction.treasury_cap r.mints hmint
    have hne : r.winners ≠ [] := by
      intro hnil
      rw [hnil] at hk
      simp at hk
    refine ⟨hpos hne, hevs, ?_, ?_⟩
    · rw [hevs]
      simp only [List.map_map]
      have : ((fun m : MintEvent => m.amount) ∘ (fun w : DecryptedBid =>
          (⟨a.treasury_cap.symbol, a.total_supply / r.winners.length, w.bidder⟩ :
            MintEvent))) = fun _ => a.total_supply / r.winners.length := rfl
      rw [this, sum_map_const_nat]
    · rw [Nat.mul_comm]
      exact Nat.div_mul_le_self a.total_supply r.winners.length

/-- Witness for the amended C9 at the concrete settlement run: one winner,
share `100 / 1 = 100`, fully distributed. -/
theorem claim_C9_distribution_amended_witness :
    0 < demoSettleAuction.total_supply / demoSettleResult.winners.length ∧
    demoSettleResult.mints = demoSettleResult.winners.map (fun w =>
      (⟨demoSettleAuction.treasury_cap.symbol,
        demoSettleAuction.total_supply / demoSettleResult.winners.length, w.bidder⟩ :
        MintEvent)) ∧
    (demoSettleResult.mints.map (fun m => m.amount)).sum =
      demoSettleResult.winners.length *
        (demoSettleAuction.total_supply / demoSettleResult.winners.length) ∧
    demoSettleResult.winners.length *
        (demoSettleAuction.total_supply / demoSettleResult.winners.length) ≤
      demoSettleAuction.total_supply :=
  claim_C9_distribution_amended demoSettleAuction demoRegistry 25 ⟨1, [9]⟩
    demoSettleResult (by rfl) (by decide)

/-! ## C10: finalize and cancel are mutually exclusive -/

/-- The two terminal operations an auction can receive after creation,
each carried by the transaction context of the caller. -/
inductive AuctionOp where
  | finalizeOp (ctx : TxContext)
  | cancelOp (ctx : TxContext)

/-- Observable terminal events of an auction. -/
inductive AuctionEvent where
  | finalizedEv
  | cancelledEv
deriving Repr, DecidableEq

/-- The lifecycle of one auction object: shared and active, shared and
finalized (the object persists, and `cancel_simple_auction` never inspects
the `finalized` flag), or deleted by a cancellation. -/
inductive LifecycleState where
  | active (a : SimpleAuction)
  | finalizedSt (a : SimpleAuction)
  | destroyed

/-- One transaction against the auction at timestamp `t`: a failed call is
a Move abort, leaving the state unchanged and emitting nothing; a deleted
object can no longer be called. -/
def lifecycle_step (reg : SimpleCoinRegistry) (s : LifecycleState) (op : AuctionOp)
    (t : Nat) : LifecycleState × List AuctionEvent :=
  match s, op with
  | .destroyed, _ => (.destroyed, [])
  | .active a, .finalizeOp ctx =>
    match finalize_simple_auction a reg t ctx with
    | .ok r => (.finalizedSt r.auction, [.finalizedEv])
    | .error _ => (.active a, [])
  | .active a, .cancelOp ctx =>
    match cancel_simple_auction a t ctx with
    | .ok _ => (.destroyed, [.cancelledEv])
    | .error _ => (.active a, [])
  | .finalizedSt a, .finalizeOp ctx =>
    match finalize_simple_auction a reg t ctx with
    | .ok r => (.finalizedSt r.auction, [.finalizedEv])
    | .error _ => (.finalizedSt a, [])
  | .finalizedSt a, .cancelOp ctx =>
    match cancel_simple_auction a t ctx with
    | .ok _ => (.destroyed, [.cancelledEv])
    | .error _ => (.finalizedSt a, [])

/-- Run a timestamped trace of operations, collecting the events. -/
def lifecycle_run (reg : SimpleCoinRegistry) :
    LifecycleState → List (AuctionOp × Nat) → LifecycleState × List AuctionEvent
  | s, [] => (s, [])
  | s, (op, t) :: rest =>
    let stepped := lifecycle_step reg s op t
    let next := lifecycle_run reg stepped.1 rest
    (next.1, stepped.2 ++ next.2)

/-- A successful cancellation can only happen strictly before
`start_time`. -/
theorem cancel_ok_time (a : SimpleAuction) (now : Nat) (ctx : TxContext)
    (x : List (Nat × Nat) × SimpleTreasuryCap × Nat)
    (h : cancel_simple_auction a now ctx = .ok x) : now < a.start_time := by
  unfold cancel_simple_auction at h
  split_ifs at h with h1 h2
  omega

/-- A destroyed auction emits nothing ever again. -/
theorem lifecycle_run_destroyed (reg : SimpleCoinRegistry) :
    ∀ tr : List (AuctionOp × Nat),
      lifecycle_run reg .destroyed tr = (.destroyed, []) := by
  intro tr
  induction tr with
  | nil => rfl
  | cons p rest ih =>
    obtain ⟨op, t⟩ := p
    simp [lifecycle_run, lifecycle_step, ih]

/-- Once finalized, an auction whose window is non-degenerate emits no
further event at any time at or after its deadline: a second finalize
fails on the `finalized` flag and a cancel fails its `now < start_time`
guard because `start_time < end_time <= t`. -/
theorem lifecycle_finalized_silent (reg : SimpleCoinRegistry) :
    ∀ (tr : List (AuctionOp × Nat)) (a : SimpleAuction),
      a.finalized = true → a.start_time < a.end_time →
      (∀ p ∈ tr, a.end_time ≤ p.2) →
      (lifecycle_run reg (.finalizedSt a) tr).2 = [] := by
  intro tr
  induction tr with
  | nil => intro a _ _ _; rfl
  | cons p rest ih =>
    intro a hfin hse hts
    obtain ⟨op, t⟩ := p
    have ht : a.end_time ≤ t := hts (op, t) (by simp)
    have hts2 : ∀ p ∈ rest, a.end_time ≤ p.2 := fun p hp => hts p (by simp [hp])
    cases op with
    | finalizeOp ctx =>
      cases hf : finalize_simple_auction a reg t ctx with
      | ok r =>
        exfalso
        have := (finalize_ok_inv a reg t ctx r hf).2.2.1
        rw [hfin] at this
        simp at this
      | error e =>
        simp [lifecycle_run, lifecycle_step, hf, ih a hfin hse hts2]
    | cancelOp ctx =>
      cases hc : cancel_simple_auction a t ctx with
      | ok x =>
        exfalso
        have := cancel_ok_time a t ctx x hc
        omega
      | error e =>
        simp [lifecycle_run, lifecycle_step, hc, ih a hfin hse hts2]

/-- From an active auction with `start_time < end_time`, no monotone trace
can ever emit both a finalized event and a cancelled event. -/
theorem lifecycle_active_exclusive (reg : SimpleCoinRegistry) :
    ∀ (tr : List (AuctionOp × Nat)) (a : SimpleAuction),
      a.start_time < a.end_time →
      tr.Pairwise (fun p q => p.2 ≤ q.2) →
      ¬(AuctionEvent.finalizedEv ∈ (lifecycle_run reg (.active a) tr).2 ∧
        AuctionEvent.cancelledEv ∈ (lifecycle_run reg (.active a) tr).2) := by
  intro tr
  induction tr with
  | nil => intro a hse hpw; simp [lifecycle_run]
  | cons p rest ih =>
    intro a hse hpw
    obtain ⟨op, t⟩ := p
    rcases List.pairwise_cons.mp hpw with ⟨hfirst, hrest⟩
    cases op with
    | finalizeOp ctx =>
      cases hf : finalize_simple_auction a reg t ctx with
      | ok r =>
        obtain ⟨hend, -, -, hfin2, hst, het, -, -⟩ := finalize_ok_inv a reg t ctx r hf
        have hnoev : (lifecycle_run reg (.finalizedSt r.auction) rest).2 = [] := by
          apply lifecycle_finalized_silent reg rest r.auction hfin2 (by omega)
          intro p hp
          have := hfirst p hp
          omega
        rintro ⟨-, hcan⟩
        simp [lifecycle_run, lifecycle_step, hf, hnoev] at hcan
      | error e =>
        have hrec := ih a hse hrest
        simp only [lifecycle_run, lifecycle_step, hf, List.nil_append]
        exact hrec
    | cancelOp ctx =>
      cases hc : cancel_simple_auction a t ctx with
      | ok x =>
        rintro ⟨hfin2, -⟩
        simp [lifecycle_run, lifecycle_step, hc, lifecycle_run_destroyed reg rest] at hfin2
      | error e =>
        have hrec := ih a hse hrest
        simp only [lifecycle_run, lifecycle_step, hc, List.nil_append]
        exact hrec

/-- C10 — implicit mutual exclusion of finalize and cancel: although
`cancel_simple_auction` never inspects the `finalized` flag, no auction
produced by `create_simple_auction` (whose guards force
`start_time < end_time`) can ever emit both a finalize event and a cancel
event along any trace with nondecreasing timestamps: a successful finalize
needs `t >= end_time`, a successful cancel needs `t < start_time`, the
clock is monotone, and a cancel deletes the object. -/
theorem claim_C10_mutual_exclusion (cap : SimpleTreasuryCap)
    (total_supply winner_count strategy start_time end_time now0 : Nat)
    (ctx0 : TxContext) (a : SimpleAuction) (reg : SimpleCoinRegistry)
    (tr : List (AuctionOp × Nat))
    (hcreate : create_simple_auction cap total_supply winner_count strategy
      start_time end_time now0 ctx0 = .ok a)
    (htimes : tr.Pairwise (fun p q => p.2 ≤ q.2)) :
    ¬(AuctionEvent.finalizedEv ∈ (lifecycle_run reg (.active a) tr).2 ∧
      AuctionEvent.cancelledEv ∈ (lifecycle_run reg (.active a) tr).2) := by
  have hse : a.start_time < a.end_time := by
    unfold create_simple_auction at hcreate
    split_ifs at hcreate with h1 h2 h3
    simp only [Except.ok.injEq] at hcreate
    subst hcreate
    simp only []
    omega
  exact lifecycle_active_exclusive reg tr a hse htimes

/-- Witness for C10: the auction created at time 5 with window `[10, 20)`,
against the trace "cancel at 7 (succeeds), finalize at 25 (fails: object
deleted)". -/
theorem claim_C10_mutual_exclusion_witness :
    ¬(AuctionEvent.finalizedEv ∈
        (lifecycle_run demoRegistry
          (.active ⟨1, "TKN", 100, 1, 0, 10, 20, [], 0, false, ⟨"TKN", 0, true⟩⟩)
          [(.cancelOp ⟨1, [9]⟩, 7), (.finalizeOp ⟨1, [9]⟩, 25)]).2 ∧
      AuctionEvent.cancelledEv ∈
        (lifecycle_run demoRegistry
          (.active ⟨1, "TKN", 100, 1, 0, 10, 20, [], 0, false, ⟨"TKN", 0, true⟩⟩)
          [(.cancelOp ⟨1, [9]⟩, 7), (.finalizeOp ⟨1, [9]⟩, 25)]).2) :=
  claim_C10_mutual_exclusion ⟨"TKN", 0, true⟩ 100 1 0 10 20 5 ⟨1, []⟩
    ⟨1, "TKN", 100, 1, 0, 10, 20, [], 0, false, ⟨"TKN", 0, true⟩⟩ demoRegistry
    [(.cancelOp ⟨1, [9]⟩, 7), (.finalizeOp ⟨1, [9]⟩, 25)]
    (by rfl) (by decide)

end SealBid
